import Mathlib

/-!
# Verification of the code-quality-checker structural extraction engine and rules

This file gives a shallow embedding, in Lean 4, of the algorithmic core of the
`code-quality-checker` repository (a Go program): the balanced-body extractor,
the annotation back-scan, the cyclomatic-complexity rule, the duplicate-code
block detector, the transaction-need heuristic rule, severity parsing and the
rule-evaluation pipeline.  Strings are modelled as `List Char` (Go operates on
UTF-8 bytes / runes; all characters relevant to the algorithms are ASCII, and
the embedding works uniformly at the rune level).  Go's `regexp` scans are
modelled by deterministic matchers specialised to the exact pattern strings
appearing in the source; each matcher carries the original pattern in its
doc comment.

Fallible scans that skip more than one character per step are implemented with
an explicit fuel parameter (fuel `= length` of the input suffices because every
step consumes at least one character); this keeps every definition executable
by kernel reduction.
-/

namespace CQC

/-! ## Character classes

Go's RE2 `\w` is `[0-9A-Za-z_]`; `\s` is `[\t\n\f\r ]`; `\d` is `[0-9]`.
`strings.TrimSpace` trims `unicode.IsSpace` characters; for Latin-1 these are
`'\t' '\n' '\v' '\f' '\r' ' ' U+0085 U+00A0`. -/

def isWordChar (c : Char) : Bool :=
  ((97 ≤ c.toNat && c.toNat ≤ 122) || (65 ≤ c.toNat && c.toNat ≤ 90)
    || (48 ≤ c.toNat && c.toNat ≤ 57) || c.toNat = 95)

def isDigitChar (c : Char) : Bool :=
  (48 ≤ c.toNat && c.toNat ≤ 57)

/-- RE2 `\s` = `[\t\n\f\r ]`. -/
def isRegexSpace (c : Char) : Bool :=
  (c = ' ' || c = '\t' || c = '\n' || c = '\x0c' || c = '\r')

/-- `unicode.IsSpace` restricted to Latin-1 (the set trimmed by
`strings.TrimSpace` on the character range the algorithms care about). -/
def isGoSpace (c : Char) : Bool :=
  (c = ' ' || c = '\t' || c = '\n' || c = '\x0b' || c = '\x0c' || c = '\r'
    || c = '\x85' || c = '\xa0')

/-- ASCII lower-casing, the fragment of `strings.ToLower` used by the rules
(`'A'..'Z'` is code points 65..90). -/
def lowerChar (c : Char) : Char :=
  if 65 ≤ c.toNat && c.toNat ≤ 90 then Char.ofNat (c.toNat + 32) else c

def lowerStr (s : List Char) : List Char := s.map lowerChar

/-! ## Basic string (List Char) utilities mirroring the `strings` package -/

/-- `strings.Contains hay needle` (substring test). -/
def containsSub (hay needle : List Char) : Bool :=
  hay.tails.any (fun t => needle.isPrefixOf t)

/-- `strings.TrimSpace`. -/
def trimSpace (s : List Char) : List Char :=
  ((s.dropWhile (fun c => isGoSpace c)).reverse.dropWhile (fun c => isGoSpace c)).reverse

/-- `strings.Split s "\n"`. -/
def splitOnNl (s : List Char) : List (List Char) :=
  match s with
  | [] => [[]]
  | c :: rest =>
    let r := splitOnNl rest
    if c = '\n' then [] :: r
    else match r with
      | [] => [[c]]
      | l :: ls => (c :: l) :: ls

/-- `strings.Join`-with-separator / `strings.Join(parts, sep)`. -/
def joinSep (sep : List Char) (parts : List (List Char)) : List Char :=
  match parts with
  | [] => []
  | [p] => p
  | p :: rest => p ++ sep ++ joinSep sep rest

/-! ## Severity (config package)

```go
type Severity int
const ( SeverityLow Severity = iota; SeverityMedium; SeverityHigh; SeverityCritical )
```
-/

inductive Severity where
  | low | medium | high | critical
deriving DecidableEq, Repr

/-- `func (s Severity) String() string` from the config source. -/
def Severity.str : Severity → List Char
  | .low => "low".data
  | .medium => "medium".data
  | .high => "high".data
  | .critical => "critical".data

/-- `func ParseSeverity(s string) Severity` from the config source:
switch on `strings.ToLower(s)` with default `SeverityLow`. -/
def parseSeverity (s : List Char) : Severity :=
  let l := lowerStr s
  if l = "low".data then .low
  else if l = "medium".data then .medium
  else if l = "high".data then .high
  else if l = "critical".data then .critical
  else .low

end CQC

/-! ### Severity lemmas -/

namespace CQC

theorem toNat_ofNat_small (n : Nat) (h : n < 55296) : (Char.ofNat n).toNat = n := by
  unfold Char.ofNat
  rw [dif_pos (Or.inl h : Nat.isValidChar n)]
  rfl

theorem lowerChar_idem (c : Char) : lowerChar (lowerChar c) = lowerChar c := by
  unfold lowerChar
  by_cases h : (65 ≤ c.toNat && c.toNat ≤ 90) = true
  · rw [if_pos h]
    simp only [Bool.and_eq_true, decide_eq_true_eq] at h
    have hval : (Char.ofNat (c.toNat + 32)).toNat = c.toNat + 32 :=
      toNat_ofNat_small _ (by omega)
    rw [if_neg (by simp only [Bool.and_eq_true, decide_eq_true_eq, hval]; omega)]
  · rw [if_neg h, if_neg h]

theorem lowerStr_idem (s : List Char) : lowerStr (lowerStr s) = lowerStr s := by
  unfold lowerStr
  rw [List.map_map]
  apply List.map_congr_left
  intro c _
  exact lowerChar_idem c

/-- C10: severity parsing round-trips on the four severity values, is
case-insensitive, and maps every string that is not (case-insensitively) one
of the four severity names to `SeverityLow`. -/
theorem severity_parse_roundtrip :
    (∀ s : Severity, parseSeverity s.str = s)
    ∧ (∀ s : List Char, parseSeverity s = parseSeverity (lowerStr s))
    ∧ (∀ s : List Char,
        lowerStr s ∉ ["low".data, "medium".data, "high".data, "critical".data] →
        parseSeverity s = .low) := by
  refine ⟨?_, ?_, ?_⟩
  · intro s; cases s <;> decide
  · intro s
    unfold parseSeverity
    rw [lowerStr_idem]
  · intro s h
    simp only [List.mem_cons, List.not_mem_nil, or_false, not_or] at h
    unfold parseSeverity
    simp only [if_neg h.1, if_neg h.2.1, if_neg h.2.2.1, if_neg h.2.2.2]

/-- Witness for `severity_parse_roundtrip` at concrete inputs: `"HIGH"` parses
back to `high` and the non-name `"Foo"` parses to the default `low`. -/
theorem severity_parse_roundtrip_witness :
    parseSeverity (Severity.high.str) = Severity.high
    ∧ parseSeverity "Foo".data = Severity.low :=
  ⟨severity_parse_roundtrip.1 Severity.high,
   severity_parse_roundtrip.2.2 "Foo".data (by decide)⟩

/-! ## Balanced-body extractor

Both `TransactionalRule.extractMethodBody` and
`CyclomaticComplexityRule.extractMethodBody` in `java_rules.go` are the same
code: find the first match of the regex `QuoteMeta(name)\s*\([^)]*\)\s*\{` in
the file content; from the matched `{` scan forward keeping a brace counter
(`+1` on `{`, `-1` on `}`, start 1); if the counter returns to 0 return the
substring from the `{` through the closing `}`, otherwise (or when the regex
does not match) return the empty string. -/

/-- Length of the leading run of regex whitespace (`\s*`, greedy). -/
def leadingWs (s : List Char) : Nat :=
  (s.takeWhile (fun c => isRegexSpace c)).length

/-- Deterministic matcher for `name\s*\([^)]*\)\s*\{` anchored at the head of
`s`; returns the match length.  (`\s*` before a non-space literal and
`[^)]*` before `)` are deterministic: the class cannot contain the
terminator, so the match runs to the first occurrence.) -/
def matchDecl (name : List Char) (s : List Char) : Option Nat :=
  if name.isPrefixOf s then
    let s1 := s.drop name.length
    let k1 := leadingWs s1
    if s1[k1]? = some '(' then
      let s2 := s1.drop (k1 + 1)
      match s2.findIdx? (fun c => c = ')') with
      | some j =>
        let s3 := s2.drop (j + 1)
        let k2 := leadingWs s3
        if s3[k2]? = some '{' then
          some (name.length + k1 + 1 + j + 1 + k2 + 1)
        else none
      | none => none
    else none
  else none

/-- End index (exclusive) of the leftmost match of the declaration pattern,
mirroring `regexp.FindStringIndex(...)[1]`. -/
def findDeclEnd (name : List Char) : List Char → Option Nat
  | [] => none
  | c :: rest =>
    match matchDecl name (c :: rest) with
    | some ℓ => some ℓ
    | none => (findDeclEnd name rest).map (· + 1)

/-- The brace-counting loop of `extractMethodBody`: scan `s` with counter `d`
(`+1` on `{`, `-1` on `}`), returning how many characters were consumed when
the counter first returns to 0 (the Go loop variable `i - start - 1 + 1`). -/
def findClose : List Char → Nat → Option Nat
  | [], _ => none
  | c :: rest, d =>
    let d' := if c = '{' then d + 1 else if c = '}' then d - 1 else d
    if d' = 0 then some 1 else (findClose rest d').map (· + 1)

/-- `extractMethodBody` from `java_rules.go` (identical in the transactional
and cyclomatic-complexity rules). -/
def extractMethodBody (content : List Char) (name : List Char) : List Char :=
  match findDeclEnd name content with
  | none => []
  | some e =>
    match findClose (content.drop e) 1 with
    | some k => (content.drop (e - 1)).take (k + 1)
    | none => []

/-- `+1` on `{`, `-1` on `}`, `0` otherwise. -/
def braceStep (c : Char) : Int :=
  if c = '{' then 1 else if c = '}' then -1 else 0

/-- Brace-depth delta of a string. -/
def braceDelta (s : List Char) : Int :=
  (s.map braceStep).sum

end CQC

/-! ### Balanced-body lemmas -/

namespace CQC

@[simp] theorem braceDelta_nil : braceDelta [] = 0 := rfl

@[simp] theorem braceDelta_cons (c : Char) (s : List Char) :
    braceDelta (c :: s) = braceStep c + braceDelta s := by
  simp [braceDelta]

/-- The updated counter in `findClose` equals `d + braceStep c` when `d ≥ 1`. -/
theorem counter_step (c : Char) (d : Nat) (hd : 1 ≤ d) :
    ((if c = '{' then d + 1 else if c = '}' then d - 1 else d : Nat) : Int)
      = (d : Int) + braceStep c := by
  unfold braceStep
  by_cases h1 : c = '{'
  · simp [h1]
  · by_cases h2 : c = '}'
    · simp [h1, h2]; omega
    · simp [h1, h2]

theorem findClose_some_spec (s : List Char) :
    ∀ d k, 1 ≤ d → findClose s d = some k →
      1 ≤ k ∧ k ≤ s.length ∧ (d : Int) + braceDelta (s.take k) = 0
        ∧ ∀ j, j < k → 0 < (d : Int) + braceDelta (s.take j) := by
  induction s with
  | nil => intro d k _ h; simp [findClose] at h
  | cons c rest ih =>
    intro d k hd h
    unfold findClose at h
    set d' := if c = '{' then d + 1 else if c = '}' then d - 1 else d with hd'
    have hstep : (d' : Int) = (d : Int) + braceStep c := counter_step c d hd
    by_cases h0 : d' = 0
    · rw [if_pos h0] at h
      obtain rfl : k = 1 := by simpa using h.symm
      refine ⟨le_refl 1, by simp, ?_, ?_⟩
      · simp only [List.take_succ_cons, List.take_zero, braceDelta_cons, braceDelta_nil]
        have : (d' : Int) = 0 := by exact_mod_cast h0
        omega
      · intro j hj
        obtain rfl : j = 0 := by omega
        simp only [List.take_zero, braceDelta_nil]
        omega
    · rw [if_neg h0] at h
      obtain ⟨k', hk', rfl⟩ := Option.map_eq_some'.mp h
      have hd1 : 1 ≤ d' := Nat.one_le_iff_ne_zero.mpr h0
      obtain ⟨hk1, hk2, hk3, hk4⟩ := ih d' k' hd1 hk'
      refine ⟨by omega, by simpa using Nat.succ_le_succ hk2, ?_, ?_⟩
      · simp only [List.take_succ_cons, braceDelta_cons]
        omega
      · intro j hj
        cases j with
        | zero =>
          simp only [List.take_zero, braceDelta_nil]
          omega
        | succ j' =>
          have := hk4 j' (by omega)
          simp only [List.take_succ_cons, braceDelta_cons]
          omega

theorem findClose_none_spec (s : List Char) :
    ∀ d, 1 ≤ d → findClose s d = none →
      ∀ j, j ≤ s.length → 1 ≤ (d : Int) + braceDelta (s.take j) := by
  induction s with
  | nil =>
    intro d hd _ j hj
    obtain rfl : j = 0 := by simpa using hj
    simp only [List.take_nil, braceDelta_nil]
    omega
  | cons c rest ih =>
    intro d hd h j hj
    unfold findClose at h
    set d' := if c = '{' then d + 1 else if c = '}' then d - 1 else d with hd'
    have hstep : (d' : Int) = (d : Int) + braceStep c := counter_step c d hd
    by_cases h0 : d' = 0
    · rw [if_pos h0] at h; exact absurd h (by simp)
    · rw [if_neg h0] at h
      have hrest : findClose rest d' = none := by
        cases hfc : findClose rest d' with
        | none => rfl
        | some k => rw [hfc] at h; simp at h
      have hd1 : 1 ≤ d' := Nat.one_le_iff_ne_zero.mpr h0
      cases j with
      | zero =>
        simp only [List.take_zero, braceDelta_nil]
        omega
      | succ j' =>
        have := ih d' hd1 hrest j' (by simpa using hj)
        simp only [List.take_succ_cons, braceDelta_cons]
        omega

/-- A successful `matchDecl` consumes at least one character and its last
consumed character is the opening brace. -/
theorem matchDecl_last (name s : List Char) (ℓ : Nat)
    (h : matchDecl name s = some ℓ) :
    1 ≤ ℓ ∧ ℓ ≤ s.length ∧ s[ℓ - 1]? = some '{' := by
  unfold matchDecl at h
  by_cases hp : name.isPrefixOf s
  swap
  · rw [if_neg hp] at h; exact absurd h (by simp)
  rw [if_pos hp] at h
  simp only at h
  set s1 := s.drop name.length with hs1
  set k1 := leadingWs s1 with hk1
  by_cases hpar : s1[k1]? = some '('
  swap
  · rw [if_neg hpar] at h; exact absurd h (by simp)
  rw [if_pos hpar] at h
  set s2 := s1.drop (k1 + 1) with hs2
  cases hj : s2.findIdx? (fun c => c = ')') with
  | none => rw [hj] at h; exact absurd h (by simp)
  | some j =>
    rw [hj] at h
    simp only at h
    set s3 := s2.drop (j + 1) with hs3
    set k2 := leadingWs s3 with hk2
    by_cases hbr : s3[k2]? = some '{'
    swap
    · rw [if_neg hbr] at h; exact absurd h (by simp)
    rw [if_pos hbr] at h
    have hℓ : ℓ = name.length + k1 + 1 + j + 1 + k2 + 1 := by
      simpa using h.symm
    subst hℓ
    have hidx : s[name.length + k1 + 1 + j + 1 + k2]? = some '{' := by
      have e3 : s3[k2]? = s[name.length + (k1 + 1) + (j + 1) + k2]? := by
        rw [hs3, hs2, hs1]
        simp only [List.getElem?_drop]
        congr 1
        omega
      rw [e3] at hbr
      have : name.length + (k1 + 1) + (j + 1) + k2
          = name.length + k1 + 1 + j + 1 + k2 := by omega
      rwa [this] at hbr
    refine ⟨by omega, ?_, ?_⟩
    · have : name.length + k1 + 1 + j + 1 + k2 < s.length := by
        by_contra hc
        rw [List.getElem?_eq_none (by omega)] at hidx
        exact absurd hidx (by simp)
      omega
    · simpa using hidx

/-- A successful `findDeclEnd` points one past an opening brace. -/
theorem findDeclEnd_spec (name : List Char) :
    ∀ (content : List Char) (e : Nat), findDeclEnd name content = some e →
      1 ≤ e ∧ e ≤ content.length ∧ content[e - 1]? = some '{' := by
  intro content
  induction content with
  | nil => intro e h; simp [findDeclEnd] at h
  | cons c rest ih =>
    intro e h
    unfold findDeclEnd at h
    cases hm : matchDecl name (c :: rest) with
    | some ℓ =>
      rw [hm] at h
      obtain rfl : ℓ = e := by simpa using h
      exact matchDecl_last name (c :: rest) _ hm
    | none =>
      rw [hm] at h
      obtain ⟨e', he', rfl⟩ := Option.map_eq_some'.mp h
      obtain ⟨h1, h2, h3⟩ := ih e' he'
      refine ⟨by omega, by simpa using Nat.succ_le_succ h2, ?_⟩
      obtain ⟨m, rfl⟩ := Nat.exists_eq_add_of_le h1
      rw [Nat.add_comm 1 m]
      simpa using h3

/-- C4: whenever the declaration pattern matches and the brace scan closes,
`extractMethodBody` returns the substring from the matched opening brace
(inclusive) to its matching closing brace (inclusive): a string that starts
with `{`, has length `k + 1`, and whose brace-depth trace returns to 0
exactly once, at its final character. -/
theorem extract_body_balanced (content name : List Char) (e k : Nat)
    (he : findDeclEnd name content = some e)
    (hk : findClose (content.drop e) 1 = some k) :
    extractMethodBody content name = (content.drop (e - 1)).take (k + 1)
    ∧ (extractMethodBody content name).head? = some '{'
    ∧ (extractMethodBody content name).length = k + 1
    ∧ (∀ j, 1 ≤ j → j ≤ (extractMethodBody content name).length →
        (braceDelta ((extractMethodBody content name).take j) = 0
          ↔ j = (extractMethodBody content name).length)) := by
  obtain ⟨he1, he2, he3⟩ := findDeclEnd_spec name content e he
  obtain ⟨hk1, hk2, hk3, hk4⟩ := findClose_some_spec (content.drop e) 1 k (le_refl 1) hk
  have hbody : extractMethodBody content name = (content.drop (e - 1)).take (k + 1) := by
    simp only [extractMethodBody, he, hk]
  -- `content.drop (e-1) = '{' :: content.drop e`
  have hlt : e - 1 < content.length := by omega
  have hcons : content.drop (e - 1) = '{' :: content.drop e := by
    have h1 : content.drop (e - 1) = content[e - 1] :: content.drop (e - 1 + 1) :=
      (List.getElem_cons_drop content (e - 1) hlt).symm
    have hget : content[e - 1] = '{' := by
      have := List.getElem?_eq_getElem hlt
      rw [this] at he3
      simpa using he3
    have h2 : e - 1 + 1 = e := by omega
    rw [h1, hget, h2]
  set tail := content.drop e with htail
  have hk2' : k ≤ tail.length := hk2
  have hlen : (extractMethodBody content name).length = k + 1 := by
    rw [hbody, hcons]
    simp only [List.length_take, List.length_cons]
    omega
  refine ⟨hbody, ?_, hlen, ?_⟩
  · rw [hbody, hcons]
    simp
  · intro j hj1 hj2
    rw [hlen] at hj2 ⊢
    rw [hbody, hcons]
    -- `(('{' :: tail).take (k+1)).take j = '{' :: tail.take (j-1)` for `1 ≤ j ≤ k+1`
    obtain ⟨m, rfl⟩ := Nat.exists_eq_add_of_le hj1
    have htake : (('{' :: tail).take (k + 1)).take (1 + m)
        = '{' :: tail.take (min m k) := by
      rw [List.take_take]
      have : min (1 + m) (k + 1) = min m k + 1 := by omega
      rw [this]
      simp [List.take_succ_cons, Nat.min_comm]
    rw [htake, braceDelta_cons]
    have hstep : braceStep '{' = 1 := rfl
    rw [hstep]
    have hmk : min m k = m := by omega
    rw [hmk]
    constructor
    · intro h0
      by_contra hne
      have hmlt : m < k := by omega
      have := hk4 m hmlt
      omega
    · intro heq
      have : m = k := by omega
      subst this
      omega

/-- C5: when the declaration pattern does not match, or the brace counter
never returns to 0 (unbalanced source), `extractMethodBody` returns the
empty string; in the unbalanced case the depth stays at least 1 on every
prefix of the scanned suffix. -/
theorem extract_body_malformed (content name : List Char) :
    (findDeclEnd name content = none → extractMethodBody content name = [])
    ∧ (∀ e, findDeclEnd name content = some e →
        findClose (content.drop e) 1 = none →
        extractMethodBody content name = []
        ∧ ∀ j, j ≤ (content.drop e).length →
            1 ≤ (1 : Int) + braceDelta ((content.drop e).take j)) := by
  constructor
  · intro h
    unfold extractMethodBody
    rw [h]
  · intro e he hn
    refine ⟨?_, ?_⟩
    · simp only [extractMethodBody, he, hn]
    · exact findClose_none_spec (content.drop e) 1 (le_refl 1) hn

/-- Witness for `extract_body_balanced`: on `"f(){}"` with name `"f"` the
extractor returns `"{}"`, whose depth trace is 0 only at its end. -/
theorem extract_body_balanced_witness :
    extractMethodBody "f(){}".data "f".data = "{}".data
    ∧ braceDelta "{}".data = 0 ∧ braceDelta "\x7b".data ≠ 0 := by
  obtain ⟨h1, _, _, _⟩ :=
    extract_body_balanced "f(){}".data "f".data 4 1 (by decide) (by decide)
  refine ⟨?_, by decide, by decide⟩
  rw [h1]; decide

/-- Witness for `extract_body_malformed`: no match on one input; matched but
unbalanced braces on another. -/
theorem extract_body_malformed_witness :
    extractMethodBody "hello world".data "f".data = []
    ∧ extractMethodBody "f()\x7b \x7b".data "f".data = [] := by
  refine ⟨(extract_body_malformed "hello world".data "f".data).1 (by decide), ?_⟩
  exact ((extract_body_malformed "f()\x7b \x7b".data "f".data).2 4 (by decide) (by decide)).1

/-! ## Deterministic matchers for the Go regex patterns

A `Matcher` decides whether a pattern matches at the head of a string and with
which length; `prev` is the character immediately before the current position
(`none` at the start of the text), needed for RE2's `\b`.  The branch patterns
of `calculateComplexity` are all deterministic under RE2's leftmost-first
semantics: greedy `\s*`/`\s+` runs stop at the first non-space, the following
literal is never a space, and the ternary pattern `\?\s*[^:]+\s*:` necessarily
ends at the first `:` after the `?`. -/

def Matcher := Option Char → List Char → Option Nat

/-- Pattern elements: literal string; greedy `\s*` followed by a literal
non-space character; greedy `\s+`; zero-width `\b` (next char must be
non-word or end-of-input); `[^c]*c` (run to the first occurrence of `c`,
inclusive). -/
inductive PatItem where
  | lit (cs : List Char)
  | wsThen (c : Char)
  | wsPlus
  | bndAfter
  | upThrough (c : Char)

/-- Run a sequence of pattern items at the head of `s`, returning the total
number of characters consumed. -/
def matchItems : List PatItem → List Char → Option Nat
  | [], _ => some 0
  | .lit cs :: rest, s =>
    if cs.isPrefixOf s then (matchItems rest (s.drop cs.length)).map (· + cs.length)
    else none
  | .wsThen c :: rest, s =>
    let k := leadingWs s
    if s[k]? = some c then (matchItems rest (s.drop (k + 1))).map (· + (k + 1))
    else none
  | .wsPlus :: rest, s =>
    let k := leadingWs s
    if k = 0 then none else (matchItems rest (s.drop k)).map (· + k)
  | .bndAfter :: rest, s =>
    match s with
    | [] => matchItems rest []
    | c :: _ => if isWordChar c then none else matchItems rest s
  | .upThrough c :: rest, s =>
    match s.findIdx? (fun x => x = c) with
    | some j => (matchItems rest (s.drop (j + 1))).map (· + (j + 1))
    | none => none

/-- A simple pattern: optional leading `\b` (all our leading-`\b` patterns
start with a word character, so the boundary holds iff `prev` is absent or a
non-word character), then a sequence of items. -/
structure SimplePat where
  bnd : Bool
  items : List PatItem

def patMatcher (p : SimplePat) : Matcher := fun prev s =>
  if p.bnd then
    match prev with
    | some c => if isWordChar c then none else matchItems p.items s
    | none => matchItems p.items s
  else matchItems p.items s

/-- `\?\s*[^:]+\s*:` — under leftmost-first semantics this matches at a `?`
iff a `:` follows with at least one character strictly between, and the match
ends at the first such `:`. -/
def ternaryMatcher : Matcher := fun _ s =>
  match s with
  | [] => none
  | c :: rest =>
    if c = '?' then
      match rest.findIdx? (fun x => x = ':') with
      | some kk => if 1 ≤ kk then some (kk + 2) else none
      | none => none
    else none

/-- The non-overlapping scan of `regexp.FindAllString(_, -1)`, counting
matches: at each position try the matcher; on a match of length `ℓ` count it
and resume after it, otherwise advance one character.  Implemented with fuel
(one unit per step; every step consumes at least one character, so
`length + 1` units suffice).  The skip length is clamped to
`min (max ℓ 1) (remaining length)`; for all matchers used here
`1 ≤ ℓ ≤ remaining length`, so the clamp is the identity. -/
def scanCountF (m : Matcher) : Nat → Option Char → List Char → Nat
  | 0, _, _ => 0
  | _ + 1, _, [] => 0
  | f + 1, prev, c :: rest =>
    match m prev (c :: rest) with
    | some ℓ =>
      let s := c :: rest
      let l := min (max ℓ 1) s.length
      1 + scanCountF m f s[l - 1]? (s.drop l)
    | none => scanCountF m f (some c) rest

/-- Scan starting with an arbitrary previous character. -/
def scanAux (m : Matcher) (prev : Option Char) (s : List Char) : Nat :=
  scanCountF m (s.length + 1) prev s

/-- Number of non-overlapping matches of `m` in `s`
(= `len(regex.FindAllString(s, -1))`). -/
def scanCount (m : Matcher) (s : List Char) : Nat := scanAux m none s

end CQC

/-! ### Scanner equations (fuel elimination) -/

namespace CQC

theorem scanCountF_fuel (m : Matcher) :
    ∀ (f : Nat) (g : Nat) (prev : Option Char) (s : List Char),
      s.length < f → s.length < g →
      scanCountF m f prev s = scanCountF m g prev s := by
  intro f
  induction f with
  | zero => intro g prev s hf; omega
  | succ f' ih =>
    intro g prev s hf hg
    cases s with
    | nil =>
      cases g with
      | zero => omega
      | succ g' => rfl
    | cons c rest =>
      cases g with
      | zero => omega
      | succ g' =>
        simp only [scanCountF]
        cases hm : m prev (c :: rest) with
        | none =>
          exact ih g' (some c) rest (by simpa using hf) (by simpa using hg)
        | some ℓ =>
          simp only
          congr 1
          apply ih
          · simp only [List.length_drop, List.length_cons]
            simp only [List.length_cons] at hf
            omega
          · simp only [List.length_drop, List.length_cons]
            simp only [List.length_cons] at hg
            omega

theorem scanAux_nil (m : Matcher) (prev : Option Char) : scanAux m prev [] = 0 := rfl

theorem scanAux_cons_none (m : Matcher) (prev : Option Char) (c : Char)
    (rest : List Char) (h : m prev (c :: rest) = none) :
    scanAux m prev (c :: rest) = scanAux m (some c) rest := by
  unfold scanAux
  simp only [List.length_cons, scanCountF, h]

theorem scanAux_cons_some (m : Matcher) (prev : Option Char) (c : Char)
    (rest : List Char) (ℓ : Nat) (h : m prev (c :: rest) = some ℓ)
    (h1 : 1 ≤ ℓ) (h2 : ℓ ≤ rest.length + 1) :
    scanAux m prev (c :: rest)
      = 1 + scanAux m (c :: rest)[ℓ - 1]? ((c :: rest).drop ℓ) := by
  unfold scanAux
  simp only [List.length_cons, scanCountF, h]
  have hl : min (max ℓ 1) (rest.length + 1) = ℓ := by omega
  simp only [List.length_cons, hl]
  congr 1
  apply scanCountF_fuel
  · simp only [List.length_drop, List.length_cons]
    omega
  · omega

/-! ## The branch-pattern catalog of `CyclomaticComplexityRule.calculateComplexity`

```go
branchPatterns := []string{
  `\bif\s*\(`, `\belse\s+if\s*\(`, `\belse\b`, `\bwhile\s*\(`, `\bfor\s*\(`,
  `\bdo\s*\{`, `\bswitch\s*\(`, `\bcase\s+`, `\bcatch\s*\(`,
  `\?\s*[^:]+\s*:`, `\&\&`, `\|\|`,
}
```
-/

/-- `\bif\s*\(` -/
def ifPat : SimplePat := ⟨true, [.lit "if".data, .wsThen '(']⟩
/-- `\belse\s+if\s*\(` -/
def elseIfPat : SimplePat := ⟨true, [.lit "else".data, .wsPlus, .lit "if".data, .wsThen '(']⟩
/-- `\belse\b` -/
def elsePat : SimplePat := ⟨true, [.lit "else".data, .bndAfter]⟩
/-- `\bwhile\s*\(` -/
def whilePat : SimplePat := ⟨true, [.lit "while".data, .wsThen '(']⟩
/-- `\bfor\s*\(` -/
def forPat : SimplePat := ⟨true, [.lit "for".data, .wsThen '(']⟩
/-- `\bdo\s*\{` -/
def doPat : SimplePat := ⟨true, [.lit "do".data, .wsThen '{']⟩
/-- `\bswitch\s*\(` -/
def switchPat : SimplePat := ⟨true, [.lit "switch".data, .wsThen '(']⟩
/-- `\bcase\s+` -/
def casePat : SimplePat := ⟨true, [.lit "case".data, .wsPlus]⟩
/-- `\bcatch\s*\(` -/
def catchPat : SimplePat := ⟨true, [.lit "catch".data, .wsThen '(']⟩
/-- `\&\&` -/
def andPat : SimplePat := ⟨false, [.lit "&&".data]⟩
/-- `\|\|` -/
def orPat : SimplePat := ⟨false, [.lit "||".data]⟩

/-- The twelve branch matchers, in source order. -/
def branchMatchers : List Matcher :=
  [patMatcher ifPat, patMatcher elseIfPat, patMatcher elsePat,
   patMatcher whilePat, patMatcher forPat, patMatcher doPat,
   patMatcher switchPat, patMatcher casePat, patMatcher catchPat,
   ternaryMatcher, patMatcher andPat, patMatcher orPat]

/-- `CyclomaticComplexityRule.calculateComplexity`: default 1 when body
extraction fails, otherwise 1 plus one per non-overlapping match of each
branch pattern in the body. -/
def calculateComplexity (content : List Char) (name : List Char) : Nat :=
  if extractMethodBody content name = [] then 1
  else branchMatchers.foldl
    (fun acc m => acc + scanCount m (extractMethodBody content name)) 1

/-! ## Data model (parser and types packages)

`JavaMethod`/`JavaClass` carry the fields the modelled rules read; `FileAST`
is the `interface{}`-typed `ParsedFile.AST` with one case per fact variant
(`noAst` for the untyped/absent case). `Issue` mirrors `types.Issue`. -/

structure JavaMethod where
  name : List Char
  annotations : List (List Char)
  parameters : List (List Char)
  line : Nat
  column : Nat
deriving DecidableEq

structure JavaClass where
  name : List Char
  annotations : List (List Char)
  methods : List JavaMethod
deriving DecidableEq

inductive FileAST where
  | javaClass (cls : JavaClass)
  | jsFunctions (names : List (List Char))
  | noAst
deriving DecidableEq

structure ParsedFile where
  path : String
  content : List Char
  lines : List (List Char)
  ast : FileAST
deriving DecidableEq

structure Issue where
  ruleId : String
  file : String
  line : Nat
  column : Nat
  severity : Severity
  category : String
  message : List Char
  description : List Char
  suggestion : List Char
  codeSnippet : List Char
deriving DecidableEq

/-- The per-rule configuration fields read by the modelled rules. -/
structure RuleConfig where
  id : String
  name : String
  severity : String
  category : String
  description : String

/-- `getCodeSnippet` (shared helper of the rules). -/
def getCodeSnippet (file : ParsedFile) (line : Nat) : List Char :=
  if line = 0 || file.lines.length < line then []
  else trimSpace (file.lines.getD (line - 1) [])

/-! ## CyclomaticComplexityRule.Check -/

/-- The finding built for a method whose complexity `c` exceeds the
threshold. -/
def ccIssue (cfg : RuleConfig) (file : ParsedFile) (m : JavaMethod) (c : Nat) : Issue where
  ruleId := cfg.id
  file := file.path
  line := m.line
  column := m.column
  severity := parseSeverity cfg.severity.data
  category := cfg.category
  message := "메소드 '".data ++ m.name ++ "'의 순환 복잡도가 너무 높습니다 (복잡도: ".data
    ++ (Nat.repr c).data ++ ")".data
  description := "높은 순환 복잡도는 코드 이해도와 테스트 어려움을 증가시킵니다".data
  suggestion := "메소드를 더 작은 단위로 분할하여 복잡도를 낮추세요".data
  codeSnippet := getCodeSnippet file m.line

/-- `CyclomaticComplexityRule.Check`: type-assert the Java facts, then for
each method append one finding iff its complexity exceeds 10. -/
def ccCheck (cfg : RuleConfig) (file : ParsedFile) : List Issue :=
  match file.ast with
  | .javaClass cls =>
    cls.methods.foldl
      (fun issues m =>
        if 10 < calculateComplexity file.content m.name
        then issues ++ [ccIssue cfg file m (calculateComplexity file.content m.name)]
        else issues)
      []
  | _ => []

end CQC

/-! ### Cyclomatic-complexity rule lemmas -/

namespace CQC

/-- An append-style fold over a list is the `filterMap` of its guard. -/
theorem foldl_ite_append {α β : Type _} (p : α → Prop) [DecidablePred p] (h : α → β) :
    ∀ (l : List α) (acc : List β),
      l.foldl (fun issues a => if p a then issues ++ [h a] else issues) acc
        = acc ++ l.filterMap (fun a => if p a then some (h a) else none) := by
  intro l
  induction l with
  | nil => simp
  | cons x xs ih =>
    intro acc
    simp only [List.foldl_cons, List.filterMap_cons]
    by_cases hp : p x
    · rw [if_pos hp, if_pos hp, ih]
      simp
    · rw [if_neg hp, if_neg hp, ih]

theorem foldl_add_map {α : Type _} (g : α → Nat) :
    ∀ (l : List α) (n : Nat),
      l.foldl (fun acc x => acc + g x) n = n + (l.map g).sum := by
  intro l
  induction l with
  | nil => simp
  | cons x xs ih =>
    intro n
    simp only [List.foldl_cons, List.map_cons, List.sum_cons, ih]
    omega

/-- C1: for a file with Java class facts, the cyclomatic-complexity rule emits
exactly one finding per method whose score exceeds 10 (and none otherwise);
the score is 1 when body extraction is empty and otherwise 1 plus the sum
over the twelve branch patterns of their non-overlapping match counts; and
the finding's message contains the method name and the computed value. -/
theorem cyclomatic_complexity_rule (cfg : RuleConfig) (file : ParsedFile)
    (cls : JavaClass) (hast : file.ast = .javaClass cls) :
    ccCheck cfg file = cls.methods.filterMap (fun m =>
        if 10 < calculateComplexity file.content m.name
        then some (ccIssue cfg file m (calculateComplexity file.content m.name))
        else none)
    ∧ (∀ name, extractMethodBody file.content name = [] →
        calculateComplexity file.content name = 1)
    ∧ (∀ name, extractMethodBody file.content name ≠ [] →
        calculateComplexity file.content name
          = 1 + (branchMatchers.map
              (fun m => scanCount m (extractMethodBody file.content name))).sum)
    ∧ (∀ m c, List.IsInfix m.name ((ccIssue cfg file m c).message)
        ∧ List.IsInfix (Nat.repr c).data ((ccIssue cfg file m c).message)) := by
  refine ⟨?_, ?_, ?_, ?_⟩
  · simp only [ccCheck, hast]
    exact foldl_ite_append
      (fun m => 10 < calculateComplexity file.content m.name)
      (fun m => ccIssue cfg file m (calculateComplexity file.content m.name))
      cls.methods []
  · intro name h
    unfold calculateComplexity
    rw [if_pos h]
  · intro name h
    unfold calculateComplexity
    rw [if_neg h]
    exact foldl_add_map _ branchMatchers 1
  · intro m c
    constructor
    · exact ⟨"메소드 '".data,
        "'의 순환 복잡도가 너무 높습니다 (복잡도: ".data ++ (Nat.repr c).data ++ ")".data,
        by simp [ccIssue]⟩
    · exact ⟨"메소드 '".data ++ m.name ++ "'의 순환 복잡도가 너무 높습니다 (복잡도: ".data,
        ")".data, by simp [ccIssue]⟩

/-- Witness for `cyclomatic_complexity_rule`: a method with 11 independent
`if` branches scores 12 and yields exactly one finding whose message reports
the value. -/
theorem cyclomatic_complexity_rule_witness :
    ccCheck ⟨"java-cyclomatic-complexity", "n", "high", "quality", "d"⟩
        ⟨"A.java",
         "void m() { if(a){} if(b){} if(c){} if(d){} if(e){} if(f){} if(g){} if(h){} if(i){} if(j){} if(k){} }".data,
         [], .javaClass ⟨"A".data, [], [⟨"m".data, [], [], 1, 1⟩]⟩⟩
      = [ccIssue ⟨"java-cyclomatic-complexity", "n", "high", "quality", "d"⟩
          ⟨"A.java",
           "void m() { if(a){} if(b){} if(c){} if(d){} if(e){} if(f){} if(g){} if(h){} if(i){} if(j){} if(k){} }".data,
           [], .javaClass ⟨"A".data, [], [⟨"m".data, [], [], 1, 1⟩]⟩⟩
          ⟨"m".data, [], [], 1, 1⟩ 12] := by
  rw [(cyclomatic_complexity_rule _ _ _ rfl).1]
  decide

end CQC

/-! ## TransactionalRule (`java_rules.go`)

The rule applies only to classes with a `@Service` annotation; for every
method whose name contains a data-mutation word and that lacks
`@Transactional`, it computes four signals on the extracted body and emits a
finding iff at least one fires, with all fired reasons comma-joined into the
message. -/

namespace CQC

def wordRunLen (s : List Char) : Nat :=
  (s.takeWhile (fun c => isWordChar c)).length

/-- Count-matcher for `\w+Suffix\.\w+\(` (`Suffix` is `Repository`, `DAO` or
`Mapper`; all of its characters are word characters).  A match at a position
forces the maximal word run there to end in `Suffix` (the following `.` is a
non-word character), preceded by at least one word character, followed by
`.`, a nonempty word run and `(`. -/
def repoCallMatcher (suffix : List Char) : Matcher := fun _ s =>
  let L := wordRunLen s
  if suffix.length + 1 ≤ L && (s.take L).drop (L - suffix.length) = suffix then
    if s[L]? = some '.' then
      let rest2 := s.drop (L + 1)
      let L2 := wordRunLen rest2
      if 1 ≤ L2 && rest2[L2]? = some '(' then some (L + 1 + L2 + 1) else none
    else none
  else none

/-- `TransactionalRule.isDataChangeMethod`. -/
def isDataChangeMethod (name : List Char) : Bool :=
  ["insert", "update", "delete", "save", "modify", "remove", "create", "add", "set"].any
    (fun p => containsSub (lowerStr name) p.data)

/-- `TransactionalRule.hasTransactionalAnnot`. -/
def hasTransactionalAnnot (annotations : List (List Char)) : Bool :=
  annotations.any (fun a => containsSub a "@Transactional".data)

/-- The `@Service` check of `TransactionalRule.Check`. -/
def hasServiceAnnot (cls : JavaClass) : Bool :=
  cls.annotations.any (fun a => containsSub a "@Service".data)

/-- Anchored test for
`if\s*\([^)]+\)\s*\{[^}]*(?:save|update|delete|insert|remove)\([^}]*\}`:
after `if ( … ) {`, one of the mutation words immediately followed by `(`
must occur before the first `}` (the `[^}]` classes confine the whole tail
of the match to the segment ending at that first `}`). -/
def condDataOpAt (s : List Char) : Bool :=
  if "if".data.isPrefixOf s then
    let s1 := s.drop 2
    let k1 := leadingWs s1
    if s1[k1]? = some '(' then
      let s2 := s1.drop (k1 + 1)
      match s2.findIdx? (fun c => c = ')') with
      | some j =>
        if 1 ≤ j then
          let s3 := s2.drop (j + 1)
          let k2 := leadingWs s3
          if s3[k2]? = some '{' then
            let t := s3.drop (k2 + 1)
            match t.findIdx? (fun c => c = '}') with
            | some fj =>
              ["save", "update", "delete", "insert", "remove"].any
                (fun w => containsSub (t.take fj) (w.data ++ "(".data))
            | none => false
          else false
        else false
      | none => false
    else false
  else false

/-- `TransactionalRule.hasConditionalDataOperations` (a `MatchString`, i.e.
existence of a match anywhere). -/
def hasConditionalDataOperations (body : List Char) : Bool :=
  body.tails.any condDataOpAt

/-- Anchored test for `(?i)\w*op\w*\(`: the operation word (case-insensitive)
followed by a (maximal) word run and `(`.  The leading `\w*` imposes no
constraint on existence. -/
def opCallAt (op : List Char) (s : List Char) : Bool :=
  if lowerStr (s.take op.length) = op then
    let rest := s.drop op.length
    rest[wordRunLen rest]? = some '('
  else false

/-- `TransactionalRule.hasMultipleDataOperations`: at least two distinct
mutation words appear as call patterns. -/
def hasMultipleDataOperations (body : List Char) : Bool :=
  2 ≤ (["save", "update", "delete", "insert", "remove"].countP
    (fun op => body.tails.any (opCallAt op.data)))

/-- Anchored test for `(?i)lit\.\w+\(` (used for `restTemplate`, `webClient`
and the `\w*Client` pattern, whose leading `\w*` imposes no constraint on
existence). -/
def litDotCallAt (lit : List Char) (s : List Char) : Bool :=
  if lowerStr (s.take lit.length) = lit then
    if s[lit.length]? = some '.' then
      let rest := s.drop (lit.length + 1)
      1 ≤ wordRunLen rest && rest[wordRunLen rest]? = some '('
    else false
  else false

/-- Anchored test for `(?i)lit\w*\.\w+\(` (used for `kafka` and `jms`). -/
def litWordDotCallAt (lit : List Char) (s : List Char) : Bool :=
  if lowerStr (s.take lit.length) = lit then
    let rest := s.drop lit.length
    let L := wordRunLen rest
    if rest[L]? = some '.' then
      let rest2 := rest.drop (L + 1)
      1 ≤ wordRunLen rest2 && rest2[wordRunLen rest2]? = some '('
    else false
  else false

/-- Anchored test for `(?i)\w*Service\.\w+\(.*http`: a `service.` call whose
argument position is followed, on the same line (RE2 `.` excludes newline),
by `http`. -/
def serviceHttpCallAt (s : List Char) : Bool :=
  if lowerStr (s.take 8) = "service.".data then
    let rest := s.drop 8
    let L := wordRunLen rest
    if 1 ≤ L && rest[L]? = some '(' then
      let after := rest.drop (L + 1)
      containsSub (lowerStr (after.takeWhile (fun c => c ≠ '\n'))) "http".data
    else false
  else false

/-- `TransactionalRule.hasExternalSystemCalls`. -/
def hasExternalSystemCalls (body : List Char) : Bool :=
  body.tails.any (litDotCallAt "resttemplate".data)
  || body.tails.any (litDotCallAt "webclient".data)
  || body.tails.any (litDotCallAt "client".data)
  || body.tails.any serviceHttpCallAt
  || containsSub (lowerStr body) "@feignclient".data
  || body.tails.any (litWordDotCallAt "kafka".data)
  || body.tails.any (litWordDotCallAt "jms".data)

/-- `MethodComplexity` (the analysis result of
`TransactionalRule.analyzeMethodComplexity`). -/
structure MethodComplexity where
  repositoryCalls : Nat
  conditionalLogic : Bool
  multipleOperations : Bool
  externalCalls : Bool

/-- `TransactionalRule.analyzeMethodComplexity` (the signal computations; the
final `requiresTransaction`/`reason` fields are `determineTransactionNeed`
below). -/
def analyzeMethodComplexity (file : ParsedFile) (m : JavaMethod) : MethodComplexity :=
  let body := extractMethodBody file.content m.name
  { repositoryCalls :=
      scanCount (repoCallMatcher "Repository".data) body
      + scanCount (repoCallMatcher "DAO".data) body
      + scanCount (repoCallMatcher "Mapper".data) body
    conditionalLogic := hasConditionalDataOperations body
    multipleOperations := hasMultipleDataOperations body
    externalCalls := hasExternalSystemCalls body }

/-- `TransactionalRule.determineTransactionNeed`: build the list of fired
reasons in order and comma-join them; a transaction is required iff the list
is nonempty. -/
def determineTransactionNeed (mc : MethodComplexity) : Bool × List Char :=
  let reasons :=
    (if 2 ≤ mc.repositoryCalls
      then ["여러 테이블 작업(".data ++ (Nat.repr mc.repositoryCalls).data ++ "개 Repository 호출)".data]
      else [])
    ++ (if mc.conditionalLogic then ["조건부 데이터 변경 로직".data] else [])
    ++ (if mc.multipleOperations then ["복합 데이터 작업(생성/수정/삭제)".data] else [])
    ++ (if mc.externalCalls && 1 ≤ mc.repositoryCalls
        then ["외부 시스템 연동과 DB 작업".data] else [])
  (decide (reasons ≠ []), joinSep ", ".data reasons)

/-- The finding built by `TransactionalRule.Check`. -/
def txIssue (cfg : RuleConfig) (file : ParsedFile) (m : JavaMethod) (reason : List Char) : Issue where
  ruleId := cfg.id
  file := file.path
  line := m.line
  column := m.column
  severity := parseSeverity cfg.severity.data
  category := cfg.category
  message := "메소드 '".data ++ m.name ++ "'에 @Transactional이 필요합니다: ".data ++ reason
  description := "복잡한 데이터 변경 작업에는 트랜잭션이 필요합니다".data
  suggestion := "@Transactional 어노테이션을 메소드에 추가하세요".data
  codeSnippet := getCodeSnippet file m.line

/-- `TransactionalRule.Check`. -/
def txCheck (cfg : RuleConfig) (file : ParsedFile) : List Issue :=
  match file.ast with
  | .javaClass cls =>
    if hasServiceAnnot cls then
      cls.methods.foldl
        (fun issues m =>
          if (isDataChangeMethod m.name && !hasTransactionalAnnot m.annotations
              && (determineTransactionNeed (analyzeMethodComplexity file m)).1) = true
          then issues ++ [txIssue cfg file m (determineTransactionNeed (analyzeMethodComplexity file m)).2]
          else issues)
        []
    else []
  | _ => []

end CQC

/-! ### Transactional rule lemmas -/

namespace CQC

/-- Every part is an infix of the separator-join of its list. -/
theorem mem_infix_joinSep (sep : List Char) :
    ∀ (parts : List (List Char)) (p : List Char), p ∈ parts →
      List.IsInfix p (joinSep sep parts) := by
  intro parts
  induction parts with
  | nil => intro p hp; simp at hp
  | cons x rest ih =>
    intro p hp
    cases rest with
    | nil =>
      simp only [List.mem_singleton] at hp
      subst hp
      exact List.infix_refl p
    | cons y ys =>
      rcases List.mem_cons.mp hp with h | h
      · subst h
        exact ⟨[], sep ++ joinSep sep (y :: ys), by simp [joinSep]⟩
      · exact (ih p h).trans ⟨x ++ sep, [], by simp [joinSep]⟩

/-- `determineTransactionNeed` fires iff at least one of the four signals
fires. -/
theorem determineNeed_iff (mc : MethodComplexity) :
    (determineTransactionNeed mc).1 = true ↔
      (2 ≤ mc.repositoryCalls ∨ mc.conditionalLogic = true
        ∨ mc.multipleOperations = true
        ∨ (mc.externalCalls = true ∧ 1 ≤ mc.repositoryCalls)) := by
  unfold determineTransactionNeed
  simp only [decide_eq_true_eq]
  by_cases h1 : 2 ≤ mc.repositoryCalls <;>
    by_cases h2 : mc.conditionalLogic = true <;>
      by_cases h3 : mc.multipleOperations = true <;>
        by_cases h4 : mc.externalCalls = true <;>
          by_cases h5 : 1 ≤ mc.repositoryCalls <;>
            simp_all

/-- C2: within a `@Service`-annotated class, the transaction-need rule emits
a finding for exactly the data-mutation-named, un-annotated methods for which
at least one of the four signals fires, and the message carries the
comma-joined reasons of every fired signal. -/
theorem transactional_rule (cfg : RuleConfig) (file : ParsedFile) (cls : JavaClass)
    (hast : file.ast = .javaClass cls) :
    (hasServiceAnnot cls = false → txCheck cfg file = [])
    ∧ (hasServiceAnnot cls = true →
        txCheck cfg file = cls.methods.filterMap (fun m =>
          if (isDataChangeMethod m.name && !hasTransactionalAnnot m.annotations
              && (determineTransactionNeed (analyzeMethodComplexity file m)).1) = true
          then some (txIssue cfg file m
              (determineTransactionNeed (analyzeMethodComplexity file m)).2)
          else none))
    ∧ (∀ mc : MethodComplexity,
        (determineTransactionNeed mc).1 = true ↔
          (2 ≤ mc.repositoryCalls ∨ mc.conditionalLogic = true
            ∨ mc.multipleOperations = true
            ∨ (mc.externalCalls = true ∧ 1 ≤ mc.repositoryCalls)))
    ∧ (∀ (m : JavaMethod) (mc : MethodComplexity),
        (2 ≤ mc.repositoryCalls →
          List.IsInfix
            ("여러 테이블 작업(".data ++ (Nat.repr mc.repositoryCalls).data ++ "개 Repository 호출)".data)
            ((txIssue cfg file m (determineTransactionNeed mc).2).message))
        ∧ (mc.conditionalLogic = true →
          List.IsInfix "조건부 데이터 변경 로직".data
            ((txIssue cfg file m (determineTransactionNeed mc).2).message))
        ∧ (mc.multipleOperations = true →
          List.IsInfix "복합 데이터 작업(생성/수정/삭제)".data
            ((txIssue cfg file m (determineTransactionNeed mc).2).message))
        ∧ (mc.externalCalls = true → 1 ≤ mc.repositoryCalls →
          List.IsInfix "외부 시스템 연동과 DB 작업".data
            ((txIssue cfg file m (determineTransactionNeed mc).2).message))) := by
  have hmsg : ∀ (m : JavaMethod) (r : List Char),
      (txIssue cfg file m r).message
        = ("메소드 '".data ++ m.name ++ "'에 @Transactional이 필요합니다: ".data) ++ r := by
    intro m r
    simp [txIssue]
  have hsuffix : ∀ (m : JavaMethod) (mc : MethodComplexity) (t : List Char),
      List.IsInfix t (determineTransactionNeed mc).2 →
      List.IsInfix t ((txIssue cfg file m (determineTransactionNeed mc).2).message) := by
    intro m mc t ht
    refine ht.trans ⟨"메소드 '".data ++ m.name ++ "'에 @Transactional이 필요합니다: ".data, [], ?_⟩
    rw [hmsg]
    simp
  refine ⟨?_, ?_, determineNeed_iff, ?_⟩
  · intro h
    simp only [txCheck, hast, h]
    simp
  · intro h
    simp only [txCheck, hast, h, if_true]
    exact foldl_ite_append
      (fun m => (isDataChangeMethod m.name && !hasTransactionalAnnot m.annotations
          && (determineTransactionNeed (analyzeMethodComplexity file m)).1) = true)
      (fun m => txIssue cfg file m
          (determineTransactionNeed (analyzeMethodComplexity file m)).2)
      cls.methods []
  · intro m mc
    refine ⟨?_, ?_, ?_, ?_⟩
    · intro h
      apply hsuffix
      apply mem_infix_joinSep
      simp only [determineTransactionNeed, if_pos h]
      simp
    · intro h
      apply hsuffix
      apply mem_infix_joinSep
      simp only [determineTransactionNeed, h]
      simp
    · intro h
      apply hsuffix
      apply mem_infix_joinSep
      simp only [determineTransactionNeed, h]
      simp
    · intro h h1
      apply hsuffix
      apply mem_infix_joinSep
      simp only [determineTransactionNeed, h]
      simp [h1]

/-- Witness for `transactional_rule`: a `@Service` class with method
`createAndNotify` containing one repository call and one external-client call
yields exactly one finding whose message names the external/DB reason. -/
theorem transactional_rule_witness :
    txCheck ⟨"java-transactional-missing", "n", "high", "c", "d"⟩
        ⟨"S.java",
         "@Service class S { void createAndNotify(User u) { userRepository.save(u); restTemplate.postForObject(url); } }".data,
         [], .javaClass ⟨"S".data, ["@Service".data],
              [⟨"createAndNotify".data, [], [], 2, 1⟩]⟩⟩
      = [txIssue ⟨"java-transactional-missing", "n", "high", "c", "d"⟩
          ⟨"S.java",
           "@Service class S { void createAndNotify(User u) { userRepository.save(u); restTemplate.postForObject(url); } }".data,
           [], .javaClass ⟨"S".data, ["@Service".data],
                [⟨"createAndNotify".data, [], [], 2, 1⟩]⟩⟩
          ⟨"createAndNotify".data, [], [], 2, 1⟩
          "외부 시스템 연동과 DB 작업".data] := by
  rw [(transactional_rule _ _ _ rfl).2.1 (by decide)]
  decide

end CQC

/-! ## DuplicateCodeRule — block-similarity detector (`checkDuplicateBlocks`)

Line normalization applies, in order, the three `ReplaceAllString`s of
`normalizeCodeLine`:
  * `"[^"]*"` → `"STRING"` (quoted strings; a quote with no partner stays),
  * `\b\d+\b` → `NUM` (standalone digit runs; runs attached to word
    characters on either side are untouched),
  * `\b[a-zA-Z_][a-zA-Z0-9_]*\b` → `VAR` (maximal identifier runs; the
    trailing `\b` always holds at the end of a maximal run).
Each replacement is modelled as a single-pass state machine that pairs quotes
/ collects runs sequentially — exactly the non-overlapping leftmost matches
of the regex. -/

namespace CQC

/-- State of the run-replacing scans: scanning normally (tracking whether the
previous character was a word character, for `\b`), or inside a candidate
run (buffering it in reverse in case it must be emitted unchanged). -/
inductive ScanSt where
  | norm (prevWord : Bool)
  | run (buf : List Char)

/-- `"[^"]*" → "STRING"`: outside quotes characters pass through; a quote
opens a buffer; a closing quote discards the buffer and emits `"STRING"`; an
unpaired trailing quote is emitted unchanged. -/
def repStrA : List Char → Option (List Char) → List Char
  | [], none => []
  | [], some buf => '"' :: buf.reverse
  | c :: rest, none =>
    if c = '"' then repStrA rest (some []) else c :: repStrA rest none
  | c :: rest, some buf =>
    if c = '"' then "\"STRING\"".data ++ repStrA rest none
    else repStrA rest (some (c :: buf))

def replaceStrings (s : List Char) : List Char := repStrA s none

/-- `\b\d+\b → NUM`: a digit run starting at a word boundary is replaced iff
its end is also a boundary (next character neither letter, digit nor `_`). -/
def repNumA : List Char → ScanSt → List Char
  | [], .norm _ => []
  | [], .run _ => "NUM".data
  | c :: rest, .norm pw =>
    if !pw && isDigitChar c then repNumA rest (.run [c])
    else c :: repNumA rest (.norm (isWordChar c))
  | c :: rest, .run buf =>
    if isDigitChar c then repNumA rest (.run (c :: buf))
    else if isWordChar c then buf.reverse ++ c :: repNumA rest (.norm true)
    else "NUM".data ++ c :: repNumA rest (.norm false)

def replaceNumbers (s : List Char) : List Char := repNumA s (.norm false)

/-- `\b[a-zA-Z_][a-zA-Z0-9_]*\b → VAR`: a maximal word run starting with a
letter or `_` at a word boundary is always replaced (its end is always a
boundary). -/
def repVarA : List Char → ScanSt → List Char
  | [], .norm _ => []
  | [], .run _ => "VAR".data
  | c :: rest, .norm pw =>
    if !pw && (isWordChar c && !isDigitChar c) then repVarA rest (.run [])
    else c :: repVarA rest (.norm (isWordChar c))
  | c :: rest, .run buf =>
    if isWordChar c then repVarA rest (.run buf)
    else "VAR".data ++ c :: repVarA rest (.norm false)

def replaceVars (s : List Char) : List Char := repVarA s (.norm false)

/-- `DuplicateCodeRule.normalizeCodeLine`. -/
def normalizeCodeLine (line : List Char) : List Char :=
  replaceVars (replaceNumbers (replaceStrings line))

/-- The skip test of `normalizeBlock`: blank after trimming, or a `//` / `*`
comment line. -/
def isSkippedLine (line : List Char) : Bool :=
  let t := trimSpace line
  t = [] || "//".data.isPrefixOf t || "*".data.isPrefixOf t

/-- `DuplicateCodeRule.normalizeBlock`: drop blank/comment lines, normalize
the rest, give up (empty key) when fewer than 3 substantive lines remain,
else join with newlines. -/
def normalizeBlock (lines : List (List Char)) : List Char :=
  let normalized :=
    (lines.filter (fun l => !isSkippedLine l)).map (fun l => normalizeCodeLine (trimSpace l))
  if normalized.length < 3 then [] else joinSep "\n".data normalized

/-- Key of the 5-line window starting at 0-based line `i`. -/
def windowKey (lines : List (List Char)) (i : Nat) : List Char :=
  normalizeBlock ((lines.drop i).take 5)

/-- The window start indices `0 ≤ i ≤ len-5` of `checkDuplicateBlocks` (empty
when the file has fewer than 5 lines). -/
def windowStarts (lines : List (List Char)) : List Nat :=
  List.range (lines.length + 1 - 5)

/-- All 1-based start lines whose window normalizes to `key` (the group
`blocks[key]`, in ascending order). -/
def occsOf (lines : List (List Char)) (key : List Char) : List Nat :=
  (windowStarts lines).filterMap
    (fun j => if windowKey lines j = key then some (j + 1) else none)

/-- The duplicate-block finding for one occurrence. -/
def dupIssue (cfg : RuleConfig) (file : ParsedFile) (lineNum count : Nat) : Issue where
  ruleId := cfg.id
  file := file.path
  line := lineNum
  column := 1
  severity := parseSeverity cfg.severity.data
  category := cfg.category
  message := "중복된 코드 블록이 발견되었습니다 (".data ++ (Nat.repr count).data
    ++ "개 위치에서 반복)".data
  description := "동일한 코드 블록이 여러 곳에서 반복되고 있습니다".data
  suggestion := "공통 메소드로 추출하여 중복을 제거하세요".data
  codeSnippet := getCodeSnippet file lineNum

/-- `DuplicateCodeRule.checkDuplicateBlocks`: one finding per occurrence of
every nonempty key whose group has at least 2 members, each reporting the
group size.  (Go iterates the groups map in unspecified order; the findings
are modelled per occurrence in window order, the same multiset.) -/
def checkDuplicateBlocks (cfg : RuleConfig) (file : ParsedFile) : List Issue :=
  (windowStarts file.lines).filterMap (fun i =>
    if windowKey file.lines i ≠ []
        ∧ 2 ≤ (occsOf file.lines (windowKey file.lines i)).length
    then some (dupIssue cfg file (i + 1)
        (occsOf file.lines (windowKey file.lines i)).length)
    else none)

end CQC

/-! ### Duplicate-block lemmas -/

namespace CQC

theorem joinSep_ne_nil (sep : List Char) (hsep : sep ≠ []) :
    ∀ (parts : List (List Char)), 2 ≤ parts.length → joinSep sep parts ≠ [] := by
  intro parts h
  match parts, h with
  | p :: q :: rest, _ =>
    simp only [joinSep]
    intro hc
    rw [List.append_assoc] at hc
    rcases List.append_eq_nil.mp hc with ⟨_, h2⟩
    rcases List.append_eq_nil.mp h2 with ⟨hsep', _⟩
    exact hsep hsep'

theorem countP_filterMap {α β : Type _} (f : α → Option β) (p : β → Bool) :
    ∀ l : List α, (l.filterMap f).countP p
      = l.countP (fun a => ((f a).map p).getD false) := by
  intro l
  induction l with
  | nil => simp
  | cons x xs ih =>
    cases hx : f x with
    | none =>
      simp only [List.filterMap_cons, hx, ih, List.countP_cons, hx]
      simp
    | some b =>
      simp only [List.filterMap_cons, hx, List.countP_cons, ih,
        Option.map_some', Option.getD_some]

theorem countP_range_unique (i : Nat) (p : Nat → Bool) (h : ∀ j, p j = true → j = i) :
    ∀ N, (List.range N).countP p = if i < N ∧ p i = true then 1 else 0 := by
  intro N
  induction N with
  | zero => simp
  | succ N ih =>
    rw [List.range_succ, List.countP_append, ih]
    have hN : List.countP p [N] = if p N = true then 1 else 0 := by
      simp [List.countP_cons]
    rw [hN]
    by_cases hpN : p N = true
    · have hNi : N = i := h N hpN
      subst hNi
      rw [if_neg (fun hc => absurd hc.1 (Nat.lt_irrefl N)), if_pos hpN,
        if_pos ⟨Nat.lt_succ_self N, hpN⟩]
    · rw [if_neg hpN]
      by_cases hpi : p i = true
      · by_cases hlt : i < N
        · rw [if_pos ⟨hlt, hpi⟩, if_pos ⟨by omega, hpi⟩]
        · have hne : i ≠ N := by
            intro hc
            subst hc
            exact hpN hpi
          have hns : ¬(i < N + 1 ∧ p i = true) := by
            intro hc
            have := hc.1
            omega
          rw [if_neg (fun hc => hlt hc.1), if_neg hns]
      · rw [if_neg (fun hc => hpi hc.2), if_neg (fun hc => hpi hc.2)]

/-- C3: the block-similarity detector skips windows with fewer than 3
substantive lines; it emits exactly one finding per member occurrence of
every nonempty key whose group has at least 2 members; every finding arises
that way and reports its group's size in the message. -/
theorem duplicate_block_detector (cfg : RuleConfig) (file : ParsedFile) :
    (∀ i, windowKey file.lines i = [] ↔
        (((file.lines.drop i).take 5).filter (fun l => !isSkippedLine l)).length < 3)
    ∧ (∀ i, i ∈ windowStarts file.lines →
        windowKey file.lines i ≠ [] →
        2 ≤ (occsOf file.lines (windowKey file.lines i)).length →
        dupIssue cfg file (i + 1) (occsOf file.lines (windowKey file.lines i)).length
          ∈ checkDuplicateBlocks cfg file)
    ∧ (∀ iss, iss ∈ checkDuplicateBlocks cfg file →
        ∃ i, i ∈ windowStarts file.lines
          ∧ windowKey file.lines i ≠ []
          ∧ 2 ≤ (occsOf file.lines (windowKey file.lines i)).length
          ∧ iss = dupIssue cfg file (i + 1)
              (occsOf file.lines (windowKey file.lines i)).length)
    ∧ (∀ i, i ∈ windowStarts file.lines →
        (checkDuplicateBlocks cfg file).countP (fun iss => iss.line = i + 1)
          = if windowKey file.lines i ≠ []
                ∧ 2 ≤ (occsOf file.lines (windowKey file.lines i)).length
            then 1 else 0)
    ∧ (∀ ℓ n, List.IsInfix (Nat.repr n).data ((dupIssue cfg file ℓ n).message)) := by
  refine ⟨?_, ?_, ?_, ?_, ?_⟩
  · intro i
    unfold windowKey normalizeBlock
    simp only [List.length_map]
    by_cases hlen :
        (((file.lines.drop i).take 5).filter (fun l => !isSkippedLine l)).length < 3
    · simp [hlen]
    · rw [if_neg hlen]
      constructor
      · intro hjoin
        exact absurd hjoin
          (joinSep_ne_nil "\n".data (by decide) _ (by simp only [List.length_map]; omega))
      · intro h
        exact absurd h hlen
  · intro i hi hkey hocc
    apply List.mem_filterMap.mpr
    exact ⟨i, hi, by rw [if_pos ⟨hkey, hocc⟩]⟩
  · intro iss hiss
    obtain ⟨i, hi, hf⟩ := List.mem_filterMap.mp hiss
    by_cases hq : windowKey file.lines i ≠ []
        ∧ 2 ≤ (occsOf file.lines (windowKey file.lines i)).length
    · rw [if_pos hq] at hf
      exact ⟨i, hi, hq.1, hq.2, (Option.some.injEq _ _ ▸ hf).symm⟩
    · rw [if_neg hq] at hf
      exact absurd hf (by simp)
  · intro i hi
    unfold checkDuplicateBlocks
    rw [countP_filterMap]
    unfold windowStarts
    have hmem : i < file.lines.length + 1 - 5 := List.mem_range.mp hi
    rw [countP_range_unique i _ ?uniq (file.lines.length + 1 - 5)]
    case uniq =>
      intro j hj
      by_cases hqj : windowKey file.lines j ≠ []
          ∧ 2 ≤ (occsOf file.lines (windowKey file.lines j)).length
      · rw [if_pos hqj] at hj
        simp only [Option.map_some', Option.getD_some] at hj
        have : j + 1 = i + 1 := by
          simpa [dupIssue] using hj
        omega
      · rw [if_neg hqj] at hj
        simp at hj
    by_cases hq : windowKey file.lines i ≠ []
        ∧ 2 ≤ (occsOf file.lines (windowKey file.lines i)).length
    · simp [hq, dupIssue]
      omega
    · simp [hq]
  · intro ℓ n
    exact ⟨"중복된 코드 블록이 발견되었습니다 (".data, "개 위치에서 반복)".data,
      by simp [dupIssue]⟩

end CQC

/-! ### Duplicate-block witness -/

namespace CQC

/-- A 15-line file consisting of the same 5-line block three times (each line
normalizes to a distinct shape). -/
def dupWitnessLines : List (List Char) :=
  ["f(x);".data, "y = z;".data, "w + v;".data, "q.r();".data, "s[t];".data,
   "f(x);".data, "y = z;".data, "w + v;".data, "q.r();".data, "s[t];".data,
   "f(x);".data, "y = z;".data, "w + v;".data, "q.r();".data, "s[t];".data]

def dupWitnessFile : ParsedFile := ⟨"F.java", [], dupWitnessLines, .noAst⟩

def dupWitnessCfg : RuleConfig := ⟨"java-duplicate-code", "n", "medium", "c", "d"⟩

/-- Witness for `duplicate_block_detector`: the block occurring at lines 1, 6
and 11 has a group of size 3 and produces exactly one finding per occurrence,
each reporting the count 3. -/
theorem duplicate_block_detector_witness :
    (occsOf dupWitnessLines (windowKey dupWitnessLines 0)).length = 3
    ∧ occsOf dupWitnessLines (windowKey dupWitnessLines 0) = [1, 6, 11]
    ∧ dupIssue dupWitnessCfg dupWitnessFile (0 + 1)
        (occsOf dupWitnessLines (windowKey dupWitnessLines 0)).length
        ∈ checkDuplicateBlocks dupWitnessCfg dupWitnessFile
    ∧ dupIssue dupWitnessCfg dupWitnessFile (5 + 1)
        (occsOf dupWitnessLines (windowKey dupWitnessLines 5)).length
        ∈ checkDuplicateBlocks dupWitnessCfg dupWitnessFile
    ∧ dupIssue dupWitnessCfg dupWitnessFile (10 + 1)
        (occsOf dupWitnessLines (windowKey dupWitnessLines 10)).length
        ∈ checkDuplicateBlocks dupWitnessCfg dupWitnessFile
    ∧ (checkDuplicateBlocks dupWitnessCfg dupWitnessFile).countP
        (fun iss => iss.line = 0 + 1) = 1 := by
  have h := duplicate_block_detector dupWitnessCfg dupWitnessFile
  refine ⟨by decide, by decide, ?_, ?_, ?_, ?_⟩
  · exact h.2.1 0 (by decide) (by decide) (by decide)
  · exact h.2.1 5 (by decide) (by decide) (by decide)
  · exact h.2.1 10 (by decide) (by decide) (by decide)
  · exact (h.2.2.2.1 0 (by decide)).trans (by decide)

end CQC

/-! ## Annotation Collector (`extractAnnotations`, parser package)

```go
func extractAnnotations(content string, beforePos int) []string {
    beforeContent := content[:beforePos]
    lines := strings.Split(beforeContent, "\n")
    for i := len(lines) - 1; i >= 0; i-- {
        line := strings.TrimSpace(lines[i])
        if strings.HasPrefix(line, "@") {
            annotations = append([]string{line}, annotations...)
        } else if line != "" && !strings.HasPrefix(line, "//") && !strings.HasPrefix(line, "*") {
            break
        }
    }
    return annotations
}
```
-/

namespace CQC

/-- The backward scan, taking the lines before the anchor in reverse order
(nearest line first).  An annotation line is prepended to the accumulated
result, i.e. it ends up after the annotations of lines farther above. -/
def collectAnns : List (List Char) → List (List Char)
  | [] => []
  | l :: rest =>
    let t := trimSpace l
    if "@".data.isPrefixOf t = true then collectAnns rest ++ [t]
    else if t = [] ∨ "//".data.isPrefixOf t = true ∨ "*".data.isPrefixOf t = true then
      collectAnns rest
    else []

/-- `extractAnnotations`. -/
def extractAnnotations (content : List Char) (beforePos : Nat) : List (List Char) :=
  collectAnns (splitOnNl (content.take beforePos)).reverse

theorem isPrefixOf_head {c : Char} {cs t : List Char}
    (h : (c :: cs).isPrefixOf t = true) : ∃ t', t = c :: t' := by
  cases t with
  | nil => simp [List.isPrefixOf] at h
  | cons b t' =>
    simp only [List.isPrefixOf, Bool.and_eq_true, beq_iff_eq] at h
    exact ⟨t', by rw [h.1]⟩

/-- The scan ignores blank lines wherever they occur. -/
theorem collectAnns_filter_blank :
    ∀ ls : List (List Char),
      collectAnns ls = collectAnns (ls.filter (fun l => decide (trimSpace l ≠ []))) := by
  intro ls
  induction ls with
  | nil => rfl
  | cons l rest ih =>
    by_cases hb : trimSpace l = []
    · have h1 : ¬ "@".data.isPrefixOf (trimSpace l) = true := by
        rw [hb]; decide
      simp only [collectAnns, if_neg h1]
      rw [if_pos (Or.inl hb), List.filter_cons, if_neg (by simpa using hb)]
      exact ih
    · rw [List.filter_cons, if_pos (by simpa using hb)]
      simp only [collectAnns]
      by_cases h1 : "@".data.isPrefixOf (trimSpace l) = true
      · rw [if_pos h1, if_pos h1, ih]
      · rw [if_neg h1, if_neg h1]
        by_cases h2 : trimSpace l = [] ∨ "//".data.isPrefixOf (trimSpace l) = true
            ∨ "*".data.isPrefixOf (trimSpace l) = true
        · rw [if_pos h2, if_pos h2, ih]
        · rw [if_neg h2, if_neg h2]

/-- C8: the backward annotation scan appends annotation lines preserving
top-to-bottom order, skips blank and comment lines without terminating,
terminates on any other non-empty line, and is invariant under inserting or
removing blank lines anywhere before the anchor: two texts whose non-blank
line sequences before the anchors agree collect the same annotations. -/
theorem annotation_scan_blank_invariant :
    (∀ (l : List Char) (rest : List (List Char)),
        (trimSpace l = [] → collectAnns (l :: rest) = collectAnns rest)
        ∧ ("//".data.isPrefixOf (trimSpace l) = true
            ∨ "*".data.isPrefixOf (trimSpace l) = true →
            collectAnns (l :: rest) = collectAnns rest)
        ∧ ("@".data.isPrefixOf (trimSpace l) = true →
            collectAnns (l :: rest) = collectAnns rest ++ [trimSpace l])
        ∧ (trimSpace l ≠ [] → ¬"@".data.isPrefixOf (trimSpace l) = true →
            ¬"//".data.isPrefixOf (trimSpace l) = true →
            ¬"*".data.isPrefixOf (trimSpace l) = true →
            collectAnns (l :: rest) = []))
    ∧ (∀ (c₁ c₂ : List Char) (p₁ p₂ : Nat),
        (splitOnNl (c₁.take p₁)).filter (fun l => decide (trimSpace l ≠ []))
          = (splitOnNl (c₂.take p₂)).filter (fun l => decide (trimSpace l ≠ [])) →
        extractAnnotations c₁ p₁ = extractAnnotations c₂ p₂) := by
  constructor
  · intro l rest
    refine ⟨?_, ?_, ?_, ?_⟩
    · intro hb
      have h1 : ¬ "@".data.isPrefixOf (trimSpace l) = true := by rw [hb]; decide
      simp only [collectAnns, if_neg h1]
      rw [if_pos (Or.inl hb)]
    · intro hc
      have h1 : ¬ "@".data.isPrefixOf (trimSpace l) = true := by
        intro ha
        obtain ⟨t', ht'⟩ := isPrefixOf_head (show ('@' :: []).isPrefixOf (trimSpace l) = true from ha)
        rcases hc with hc | hc
        · obtain ⟨u, hu⟩ :=
            isPrefixOf_head (show ('/' :: '/' :: []).isPrefixOf (trimSpace l) = true from hc)
          rw [ht'] at hu
          simp at hu
        · obtain ⟨u, hu⟩ :=
            isPrefixOf_head (show ('*' :: []).isPrefixOf (trimSpace l) = true from hc)
          rw [ht'] at hu
          simp at hu
      simp only [collectAnns, if_neg h1]
      rw [if_pos (Or.inr hc)]
    · intro h1
      simp only [collectAnns, if_pos h1]
    · intro hb h1 h2 h3
      simp only [collectAnns, if_neg h1]
      rw [if_neg (by simp [hb, h2, h3])]
  · intro c₁ c₂ p₁ p₂ hf
    unfold extractAnnotations
    rw [collectAnns_filter_blank, List.filter_reverse, hf, ← List.filter_reverse,
      ← collectAnns_filter_blank]

/-- Witness for `annotation_scan_blank_invariant`: inserting two extra blank
lines between `@A` and the declaration changes nothing. -/
theorem annotation_scan_blank_invariant_witness :
    extractAnnotations "@A\nfoo".data 3 = extractAnnotations "@A\n\n\nfoo".data 5
    ∧ extractAnnotations "@A\n\n\nfoo".data 5 = ["@A".data]
    ∧ collectAnns (["@A".data] ++ ["@B".data]) = ["@B".data, "@A".data] :=
  ⟨annotation_scan_blank_invariant.2 "@A\nfoo".data "@A\n\n\nfoo".data 3 5 (by decide),
   by decide,
   (annotation_scan_blank_invariant.1 "@A".data ["@B".data]).2.2.1 (by decide)⟩

end CQC

/-! ## Evaluation pipeline (`Engine.CheckFile`) and ExceptionHandlingRule

`Engine.CheckFile` looks the language up in the registry and returns no
findings when no rule list is registered.  `ExceptionHandlingRule.Check`
runs two text-pattern detectors *before* its `*parser.JavaClass` type
assertion, so (unlike the transactional/complexity rules) it can emit
findings on a file whose fact variant does not match. -/

namespace CQC

/-- A rule's evaluation function (the `Check` method). -/
def RuleFn := ParsedFile → List Issue

/-- The engine's per-language registry, as an association list. -/
def lookupRules (tbl : List (String × List RuleFn)) (lang : String) :
    Option (List RuleFn) :=
  (tbl.find? (fun e => e.1 = lang)).map (fun e => e.2)

/-- `Engine.CheckFile`: no registered rules ⇒ no findings; otherwise run
every rule in registration order and concatenate. -/
def checkFileEngine (tbl : List (String × List RuleFn)) (lang : String)
    (file : ParsedFile) : List Issue :=
  match lookupRules tbl lang with
  | none => []
  | some rules => (rules.map (fun r => r file)).flatten

/-- Count '\n' before `pos`, plus 1 (`getLineNumberFromPosition`). -/
def lineOfPos (content : List Char) (pos : Nat) : Nat :=
  ((content.take pos).countP (fun c => c = '\n')) + 1

/-- Length of the line fragment before `pos`, plus 1
(`getColumnFromPosition`). -/
def colOfPos (content : List Char) (pos : Nat) : Nat :=
  ((splitOnNl (content.take pos)).getLastD []).length + 1

/-- `FindAllStringIndex`-style scan returning the start position of every
non-overlapping match. -/
def scanPosF (m : Matcher) : Nat → Option Char → Nat → List Char → List Nat
  | 0, _, _, _ => []
  | _ + 1, _, _, [] => []
  | f + 1, prev, pos, c :: rest =>
    match m prev (c :: rest) with
    | some ℓ =>
      let s := c :: rest
      let l := min (max ℓ 1) s.length
      pos :: scanPosF m f s[l - 1]? (pos + l) (s.drop l)
    | none => scanPosF m f (some c) (pos + 1) rest

def scanPositions (m : Matcher) (s : List Char) : List Nat :=
  scanPosF m (s.length + 1) none 0 s

/-- `\.printStackTrace\(\)` (a pure literal). -/
def printStackTracePat : SimplePat := ⟨false, [.lit ".printStackTrace()".data]⟩

/-- `throw\s+new\s+Exception\s*\([^)]*\)`. -/
def throwExceptionPat : SimplePat :=
  ⟨false, [.lit "throw".data, .wsPlus, .lit "new".data, .wsPlus,
    .lit "Exception".data, .wsThen '(', .upThrough ')']⟩

def ehIsController (cls : JavaClass) : Bool :=
  cls.annotations.any (fun a =>
    containsSub a "@Controller".data || containsSub a "@RestController".data)
  || containsSub (lowerStr cls.name) "controller".data

def hasGlobalExceptionHandler (content : List Char) : Bool :=
  containsSub content "@ControllerAdvice".data
  || containsSub content "@RestControllerAdvice".data

/-- `ExceptionHandlingRule.Check`: two content-based detectors (independent
of the fact variant), then the `@ControllerAdvice` check guarded by the type
assertion. -/
def ehCheck (cfg : RuleConfig) (file : ParsedFile) : List Issue :=
  (scanPositions (patMatcher printStackTracePat) file.content).map (fun pos =>
    { ruleId := cfg.id, file := file.path
      line := lineOfPos file.content pos, column := colOfPos file.content pos
      severity := parseSeverity cfg.severity.data, category := cfg.category
      message := "printStackTrace() 사용이 발견되었습니다".data
      description := "예외 스택트레이스가 콘솔에 노출되어 보안 위험이 있습니다".data
      suggestion := "Logger를 사용하여 적절한 로깅을 하세요".data
      codeSnippet := getCodeSnippet file (lineOfPos file.content pos) })
  ++ (scanPositions (patMatcher throwExceptionPat) file.content).map (fun pos =>
    { ruleId := cfg.id, file := file.path
      line := lineOfPos file.content pos, column := colOfPos file.content pos
      severity := parseSeverity cfg.severity.data, category := cfg.category
      message := "일반적인 Exception 타입을 사용하고 있습니다".data
      description := "구체적인 예외 타입을 사용하는 것이 좋습니다".data
      suggestion := "구체적인 예외 클래스(BusinessException 등)를 정의하여 사용하세요".data
      codeSnippet := getCodeSnippet file (lineOfPos file.content pos) })
  ++ (match file.ast with
    | .javaClass cls =>
      if ehIsController cls && !hasGlobalExceptionHandler file.content then
        [{ ruleId := cfg.id, file := file.path, line := 1, column := 1
           severity := parseSeverity cfg.severity.data, category := cfg.category
           message := "전역 예외 처리기(@ControllerAdvice)가 없습니다".data
           description := "일관된 예외 처리를 위해 전역 예외 처리기가 필요합니다".data
           suggestion := "@ControllerAdvice 클래스를 생성하여 전역 예외 처리를 구현하세요".data
           codeSnippet := [] }]
      else []
    | _ => [])

/-- C9 counterexample: the exception-handling rule type-asserts the Java
fact variant but emits its text-pattern findings even when the assertion
fails — a file with no Java facts and a `.printStackTrace()` call yields a
non-empty finding list, refuting "every rule returns an empty sequence on a
fact-type mismatch". -/
theorem rule_type_mismatch_counterexample :
    ehCheck ⟨"java-exception-handling", "n", "medium", "c", "d"⟩
        ⟨"X.js", "e.printStackTrace()".data, [], .noAst⟩ ≠ [] := by
  decide

/-- C9 (amended): the transactional and cyclomatic-complexity rules — whose
findings derive entirely from the typed facts — return an empty sequence
when the fact variant does not match, and `CheckFile` returns an empty
sequence for a language with no registered rule list; but a rule need not be
silent on a mismatch when it also scans raw text (see the counterexample). -/
theorem rule_type_mismatch_amended :
    (∀ (cfg : RuleConfig) (file : ParsedFile),
        (∀ cls, file.ast ≠ .javaClass cls) →
        txCheck cfg file = [] ∧ ccCheck cfg file = [])
    ∧ (∀ (tbl : List (String × List RuleFn)) (lang : String) (file : ParsedFile),
        lookupRules tbl lang = none → checkFileEngine tbl lang file = []) := by
  constructor
  · intro cfg file h
    constructor
    · unfold txCheck
      cases hast : file.ast with
      | javaClass cls => exact absurd hast (h cls)
      | jsFunctions fs => rfl
      | noAst => rfl
    · unfold ccCheck
      cases hast : file.ast with
      | javaClass cls => exact absurd hast (h cls)
      | jsFunctions fs => rfl
      | noAst => rfl
  · intro tbl lang file h
    unfold checkFileEngine
    rw [h]

/-- Witness for `rule_type_mismatch_amended` at a concrete mismatched file
and an empty registry. -/
theorem rule_type_mismatch_amended_witness :
    txCheck ⟨"i", "n", "low", "c", "d"⟩ ⟨"X.js", "save()".data, [], .noAst⟩ = []
    ∧ checkFileEngine [] "java" ⟨"X.js", "save()".data, [], .noAst⟩ = [] :=
  ⟨(rule_type_mismatch_amended.1 ⟨"i", "n", "low", "c", "d"⟩
      ⟨"X.js", "save()".data, [], .noAst⟩ (fun cls h => by cases h)).1,
   rule_type_mismatch_amended.2 [] "java" ⟨"X.js", "save()".data, [], .noAst⟩ rfl⟩

end CQC

/-! ## Token-level model of code lines (for the renaming invariance of the
duplicate detector)

A code line is modelled as a sequence of tokens: identifiers (letter/`_`-led
word runs), string literals (quote-delimited, no inner quote), number
literals (digit runs) and single non-word, non-quote symbol characters.
Well-formedness additionally forbids two adjacent word-run tokens (which
would merge in the rendered text).  On the rendering of a well-formed token
line, the three replacements of `normalizeCodeLine` act tokenwise. -/

namespace CQC

inductive Tok where
  | ident (s : List Char)
  | strlit (s : List Char)
  | num (s : List Char)
  | sym (c : Char)

def renderTok : Tok → List Char
  | .ident s => s
  | .strlit s => '"' :: (s ++ ['"'])
  | .num s => s
  | .sym c => [c]

def renderLine (ts : List Tok) : List Char := (ts.map renderTok).flatten

def isIdentStart (c : Char) : Bool := isWordChar c && !isDigitChar c

def wfIdent (s : List Char) : Bool :=
  match s with
  | [] => false
  | c :: rest => isIdentStart c && rest.all (fun x => isWordChar x)

def wfTok : Tok → Bool
  | .ident s => wfIdent s
  | .strlit s => s.all (fun c => c ≠ '"')
  | .num s => !s.isEmpty && s.all (fun c => isDigitChar c)
  | .sym c => !isWordChar c && c ≠ '"'

/-- Does the rendered token start (end) with a word character? -/
def startsWord : Tok → Bool
  | .ident _ => true
  | .num _ => true
  | .strlit _ => false
  | .sym _ => false

def wfChain : List Tok → Bool
  | [] => true
  | [_] => true
  | t1 :: t2 :: rest => !(startsWord t1 && startsWord t2) && wfChain (t2 :: rest)

def WFLine (ts : List Tok) : Bool := ts.all (fun t => wfTok t) && wfChain ts

/-- Effect of `"[^"]*" → "STRING"` on one token. -/
def step1Tok : Tok → Tok
  | .strlit _ => .strlit "STRING".data
  | t => t

/-- Combined effect of the first two replacements. -/
def step12Tok : Tok → Tok
  | .strlit _ => .strlit "STRING".data
  | .num _ => .ident "NUM".data
  | t => t

/-- Combined effect of all three replacements: every identifier-shaped run
(including the just-introduced `STRING`/`NUM`) becomes `VAR`. -/
def canonTok : Tok → Tok
  | .strlit _ => .strlit "VAR".data
  | .num _ => .ident "VAR".data
  | .ident _ => .ident "VAR".data
  | .sym c => .sym c

/-- An identifier renaming, applied to identifier tokens only (literal values
unchanged). -/
def renTok (ρ : List Char → List Char) : Tok → Tok
  | .ident s => .ident (ρ s)
  | t => t

/-- A renaming is valid when it maps well-formed identifiers to well-formed
identifiers. -/
def ValidRen (ρ : List Char → List Char) : Prop :=
  ∀ s, wfIdent s = true → wfIdent (ρ s) = true

end CQC

/-! ### Step 1: the string-literal replacement acts tokenwise -/

namespace CQC

theorem renderLine_cons (t : Tok) (ts : List Tok) :
    renderLine (t :: ts) = renderTok t ++ renderLine ts := by
  simp [renderLine]

theorem repStrA_pass (s : List Char) :
    ∀ R, (∀ c ∈ s, c ≠ '"') → repStrA (s ++ R) none = s ++ repStrA R none := by
  induction s with
  | nil => intro R _; rfl
  | cons c cs ih =>
    intro R h
    have hc : c ≠ '"' := h c (by simp)
    simp only [List.cons_append, repStrA, if_neg hc, List.append_eq]
    rw [ih R (fun x hx => h x (by simp [hx]))]

theorem repStrA_instr (s : List Char) :
    ∀ (buf : List Char) (R : List Char), (∀ c ∈ s, c ≠ '"') →
      repStrA (s ++ '"' :: R) (some buf) = "\"STRING\"".data ++ repStrA R none := by
  induction s with
  | nil =>
    intro buf R _
    simp [repStrA]
  | cons c cs ih =>
    intro buf R h
    have hc : c ≠ '"' := h c (by simp)
    simp only [List.cons_append, repStrA, if_neg hc, List.append_eq]
    exact ih _ R (fun x hx => h x (by simp [hx]))

/-- Characters of a word run are never quotes. -/
theorem word_ne_quote {c : Char} (h : isWordChar c = true) : c ≠ '"' := by
  intro hc
  subst hc
  simp [isWordChar] at h

theorem digit_ne_quote {c : Char} (h : isDigitChar c = true) : c ≠ '"' := by
  intro hc
  subst hc
  simp [isDigitChar] at h

theorem digit_isWord {c : Char} (h : isDigitChar c = true) : isWordChar c = true := by
  simp only [isDigitChar, Bool.and_eq_true, decide_eq_true_eq] at h
  simp only [isWordChar, Bool.or_eq_true, Bool.and_eq_true, decide_eq_true_eq]
  omega

theorem wfIdent_chars {s : List Char} (h : wfIdent s = true) :
    ∀ c ∈ s, isWordChar c = true := by
  match s with
  | [] => simp [wfIdent] at h
  | c0 :: rest =>
    simp only [wfIdent, Bool.and_eq_true, isIdentStart] at h
    intro c hc
    rcases List.mem_cons.mp hc with rfl | hmem
    · exact h.1.1
    · exact (List.all_eq_true.mp h.2) c hmem

/-- Step-1 lemma: on a well-formed token line, the quoted-string replacement
replaces exactly the string-literal tokens. -/
theorem repStr_render (ts : List Tok) (hwf : ∀ t ∈ ts, wfTok t = true) :
    replaceStrings (renderLine ts) = renderLine (ts.map step1Tok) := by
  unfold replaceStrings
  induction ts with
  | nil => rfl
  | cons t rest ih =>
    have hwt : wfTok t = true := hwf t (by simp)
    have ihr := ih (fun x hx => hwf x (by simp [hx]))
    rw [renderLine_cons, List.map_cons, renderLine_cons]
    cases t with
    | ident s =>
      simp only [renderTok, step1Tok]
      rw [repStrA_pass s _ (fun c hc => word_ne_quote (wfIdent_chars hwt c hc))]
      rw [ihr]
    | num s =>
      have hd : ∀ c ∈ s, isDigitChar c = true := by
        simp only [wfTok, Bool.and_eq_true, List.all_eq_true] at hwt
        intro c hc
        exact hwt.2 c hc
      simp only [renderTok, step1Tok]
      rw [repStrA_pass s _ (fun c hc => digit_ne_quote (hd c hc))]
      rw [ihr]
    | sym c =>
      have hc : c ≠ '"' := by
        simp only [wfTok, Bool.and_eq_true, decide_eq_true_eq] at hwt
        exact hwt.2
      show repStrA (c :: (renderLine rest)) none = _
      simp only [repStrA, if_neg hc]
      rw [ihr]
      rfl
    | strlit s =>
      have hs : ∀ c ∈ s, c ≠ '"' := by
        simp only [wfTok, List.all_eq_true, decide_eq_true_eq] at hwt
        exact hwt
      show repStrA ('"' :: (s ++ ['"'] ++ renderLine rest)) none = _
      simp only [repStrA, if_pos rfl]
      rw [List.append_assoc, List.singleton_append]
      rw [repStrA_instr s [] _ hs, ihr]
      rfl

end CQC

/-! ### Step 2: the number replacement acts tokenwise -/

namespace CQC

theorem repNumA_step_nondigit (c : Char) (R : List Char) (pw : Bool)
    (h : isDigitChar c = false) :
    repNumA (c :: R) (.norm pw) = c :: repNumA R (.norm (isWordChar c)) := by
  simp [repNumA, h]

theorem repNum_word_tail (cs : List Char) :
    ∀ R, cs.all (fun x => isWordChar x) = true →
      repNumA (cs ++ R) (.norm true) = cs ++ repNumA R (.norm true) := by
  induction cs with
  | nil => intro R _; rfl
  | cons c cs' ih =>
    intro R h
    simp only [List.all_cons, Bool.and_eq_true] at h
    show repNumA (c :: (cs' ++ R)) (.norm true) = c :: (cs' ++ repNumA R (.norm true))
    have hstep : repNumA (c :: (cs' ++ R)) (.norm true)
        = c :: repNumA (cs' ++ R) (.norm (isWordChar c)) := rfl
    rw [hstep, h.1, ih R h.2]

theorem repNum_ident (s : List Char) (hs : wfIdent s = true) (R : List Char) (pw : Bool) :
    repNumA (s ++ R) (.norm pw) = s ++ repNumA R (.norm true) := by
  match s, hs with
  | c :: cs, hs =>
    simp only [wfIdent, isIdentStart, Bool.and_eq_true, Bool.not_eq_true'] at hs
    show repNumA (c :: (cs ++ R)) (.norm pw) = c :: (cs ++ repNumA R (.norm true))
    rw [repNumA_step_nondigit c _ pw hs.1.2, hs.1.1, repNum_word_tail cs R hs.2]

theorem repNum_run_digits (ds : List Char) :
    ∀ (buf R : List Char), ds.all (fun x => isDigitChar x) = true →
      (R = [] ∨ ∃ d R', R = d :: R' ∧ isWordChar d = false) →
      repNumA (ds ++ R) (.run buf) = "NUM".data ++ repNumA R (.norm false) := by
  induction ds with
  | nil =>
    intro buf R _ hR
    rcases hR with rfl | ⟨d, R', rfl, hd⟩
    · rfl
    · have hdd : isDigitChar d = false := by
        cases hdig : isDigitChar d with
        | false => rfl
        | true => rw [digit_isWord hdig] at hd; exact absurd hd (by simp)
      show repNumA (d :: R') (.run buf) = "NUM".data ++ repNumA (d :: R') (.norm false)
      rw [repNumA_step_nondigit d R' false hdd, hd]
      simp [repNumA, hdd, hd]
  | cons e ds' ih =>
    intro buf R h hR
    simp only [List.all_cons, Bool.and_eq_true] at h
    show repNumA (e :: (ds' ++ R)) (.run buf) = _
    simp only [repNumA, h.1, if_pos]
    exact ih (e :: buf) R h.2 hR

theorem repNum_digits (s : List Char) (hne : s ≠ [])
    (h : s.all (fun x => isDigitChar x) = true) (R : List Char)
    (hR : R = [] ∨ ∃ d R', R = d :: R' ∧ isWordChar d = false) :
    repNumA (s ++ R) (.norm false) = "NUM".data ++ repNumA R (.norm false) := by
  match s, hne with
  | e :: ds', _ =>
    simp only [List.all_cons, Bool.and_eq_true] at h
    show repNumA (e :: (ds' ++ R)) (.norm false) = _
    simp only [repNumA, h.1, Bool.not_false, Bool.true_and, if_pos]
    exact repNum_run_digits ds' [e] R h.2 hR

theorem repNum_string_pass (R : List Char) (pw : Bool) :
    repNumA ('"' :: 'S' :: 'T' :: 'R' :: 'I' :: 'N' :: 'G' :: '"' :: R) (.norm pw)
      = '"' :: 'S' :: 'T' :: 'R' :: 'I' :: 'N' :: 'G' :: '"' :: repNumA R (.norm false) := by
  rw [repNumA_step_nondigit _ _ _ (by decide)]
  rfl

/-- Heads of tokens that do not start with a word character. -/
theorem render_head_nonword (t : Tok) (hwf : wfTok t = true) (hs : startsWord t = false) :
    ∃ d R₀, renderTok (step1Tok t) = d :: R₀ ∧ isWordChar d = false := by
  cases t with
  | ident s => simp [startsWord] at hs
  | num s => simp [startsWord] at hs
  | sym c =>
    refine ⟨c, [], rfl, ?_⟩
    simp only [wfTok, Bool.and_eq_true, Bool.not_eq_true'] at hwf
    exact hwf.1
  | strlit s => exact ⟨'"', "STRING".data ++ ['"'], rfl, by decide⟩

theorem wfChain_tail {t : Tok} {rest : List Tok} (h : wfChain (t :: rest) = true) :
    wfChain rest = true := by
  cases rest with
  | nil => rfl
  | cons t' rest' =>
    simp only [wfChain, Bool.and_eq_true] at h
    exact h.2

theorem wfChain_head {t t' : Tok} {rest : List Tok}
    (h : wfChain (t :: t' :: rest) = true) : (startsWord t && startsWord t') = false := by
  simp only [wfChain, Bool.and_eq_true, Bool.not_eq_true'] at h
  exact h.1

/-- Step-2 lemma: on (the step-1 image of) a well-formed token line, the
number replacement replaces exactly the number tokens. -/
theorem repNum_render (ts : List Tok) :
    (∀ t ∈ ts, wfTok t = true) → wfChain ts = true →
    ∀ pw : Bool, (pw = true → ∀ t, ts.head? = some t → startsWord t = false) →
      repNumA (renderLine (ts.map step1Tok)) (.norm pw)
        = renderLine (ts.map step12Tok) := by
  induction ts with
  | nil => intro _ _ pw _; rfl
  | cons t rest ih =>
    intro hwf hch pw hpw
    have hwt : wfTok t = true := hwf t (by simp)
    have ihr := ih (fun x hx => hwf x (by simp [hx])) (wfChain_tail hch)
    rw [List.map_cons, List.map_cons, renderLine_cons, renderLine_cons]
    cases t with
    | sym c =>
      have hc : isWordChar c = false := by
        simp only [wfTok, Bool.and_eq_true, Bool.not_eq_true'] at hwt
        exact hwt.1
      have hcd : isDigitChar c = false := by
        cases hdig : isDigitChar c with
        | false => rfl
        | true => rw [digit_isWord hdig] at hc; exact absurd hc (by simp)
      show repNumA (c :: renderLine (List.map step1Tok rest)) (.norm pw) = _
      rw [repNumA_step_nondigit c _ pw hcd, hc]
      rw [ihr false (by simp)]
      rfl
    | strlit s =>
      show repNumA ('"' :: 'S' :: 'T' :: 'R' :: 'I' :: 'N' :: 'G' :: '"'
          :: renderLine (List.map step1Tok rest)) (.norm pw) = _
      rw [repNum_string_pass, ihr false (by simp)]
      rfl
    | ident s =>
      have hwi : wfIdent s = true := hwt
      show repNumA (s ++ renderLine (List.map step1Tok rest)) (.norm pw) = _
      rw [repNum_ident s hwi _ pw]
      rw [ihr true ?hnext]
      case hnext =>
        intro _ t' ht'
        cases rest with
        | nil => simp at ht'
        | cons u rest' =>
          obtain rfl : u = t' := by simpa using ht'
          have := wfChain_head hch
          simpa [startsWord] using this
      rfl
    | num s =>
      have hpwf : pw = false := by
        cases hpv : pw with
        | false => rfl
        | true =>
          have := hpw hpv (Tok.num s) (by simp)
          simp [startsWord] at this
      subst hpwf
      simp only [wfTok, Bool.and_eq_true, Bool.not_eq_true'] at hwt
      have hne : s ≠ [] := by
        cases s with
        | nil => simp at hwt
        | cons a b => simp
      have hR : renderLine (List.map step1Tok rest) = []
          ∨ ∃ d R', renderLine (List.map step1Tok rest) = d :: R'
              ∧ isWordChar d = false := by
        cases rest with
        | nil => exact Or.inl rfl
        | cons u rest' =>
          have hsu : startsWord u = false := by
            have := wfChain_head hch
            simpa [startsWord] using this
          obtain ⟨d, R₀, hr, hd⟩ :=
            render_head_nonword u (hwf u (by simp)) hsu
          refine Or.inr ⟨d, R₀ ++ renderLine (List.map step1Tok rest'), ?_, hd⟩
          rw [List.map_cons, renderLine_cons, hr]
          simp
      show repNumA (s ++ renderLine (List.map step1Tok rest)) (.norm false) = _
      rw [repNum_digits s hne hwt.2 _ hR, ihr false (by simp)]
      rfl

end CQC

/-! ### Step 3: the identifier replacement acts tokenwise -/

namespace CQC

theorem repVarA_step_nonword (c : Char) (R : List Char) (pw : Bool)
    (h : isWordChar c = false) :
    repVarA (c :: R) (.norm pw) = c :: repVarA R (.norm false) := by
  have h2 : (isWordChar c && !isDigitChar c) = false := by rw [h]; rfl
  simp [repVarA, h2, h]

theorem repVar_run (cs : List Char) :
    ∀ (buf R : List Char), cs.all (fun x => isWordChar x) = true →
      (R = [] ∨ ∃ d R', R = d :: R' ∧ isWordChar d = false) →
      repVarA (cs ++ R) (.run buf) = "VAR".data ++ repVarA R (.norm false) := by
  induction cs with
  | nil =>
    intro buf R _ hR
    rcases hR with rfl | ⟨d, R', rfl, hd⟩
    · rfl
    · show repVarA (d :: R') (.run buf) = "VAR".data ++ repVarA (d :: R') (.norm false)
      rw [repVarA_step_nonword d R' false hd]
      simp [repVarA, hd]
  | cons e cs' ih =>
    intro buf R h hR
    simp only [List.all_cons, Bool.and_eq_true] at h
    show repVarA (e :: (cs' ++ R)) (.run buf) = _
    simp only [repVarA, h.1, if_pos]
    exact ih buf R h.2 hR

theorem repVar_ident (s : List Char) (hs : wfIdent s = true) (R : List Char)
    (hR : R = [] ∨ ∃ d R', R = d :: R' ∧ isWordChar d = false) :
    repVarA (s ++ R) (.norm false) = "VAR".data ++ repVarA R (.norm false) := by
  match s, hs with
  | c :: cs, hs =>
    simp only [wfIdent, Bool.and_eq_true] at hs
    show repVarA (c :: (cs ++ R)) (.norm false) = _
    have hcond : (!false && (isWordChar c && !isDigitChar c)) = true := by
      simp only [isIdentStart] at hs
      simp [hs.1]
    simp only [repVarA, hcond, if_pos]
    exact repVar_run cs [] R hs.2 hR

theorem repVar_string (R : List Char) :
    repVarA ('"' :: 'S' :: 'T' :: 'R' :: 'I' :: 'N' :: 'G' :: '"' :: R) (.norm false)
      = '"' :: 'V' :: 'A' :: 'R' :: '"' :: repVarA R (.norm false) := rfl

theorem render_head_nonword12 (t : Tok) (hwf : wfTok t = true)
    (hs : startsWord t = false) :
    ∃ d R₀, renderTok (step12Tok t) = d :: R₀ ∧ isWordChar d = false := by
  cases t with
  | ident s => simp [startsWord] at hs
  | num s => simp [startsWord] at hs
  | sym c =>
    refine ⟨c, [], rfl, ?_⟩
    simp only [wfTok, Bool.and_eq_true, Bool.not_eq_true'] at hwf
    exact hwf.1
  | strlit s => exact ⟨'"', "STRING".data ++ ['"'], rfl, by decide⟩

/-- Step-3 lemma: every identifier-shaped run of the step-1/2 image becomes
`VAR`. -/
theorem repVar_render (ts : List Tok) :
    (∀ t ∈ ts, wfTok t = true) → wfChain ts = true →
      repVarA (renderLine (ts.map step12Tok)) (.norm false)
        = renderLine (ts.map canonTok) := by
  induction ts with
  | nil => intro _ _; rfl
  | cons t rest ih =>
    intro hwf hch
    have hwt : wfTok t = true := hwf t (by simp)
    have ihr := ih (fun x hx => hwf x (by simp [hx])) (wfChain_tail hch)
    rw [List.map_cons, List.map_cons, renderLine_cons, renderLine_cons]
    cases t with
    | sym c =>
      have hc : isWordChar c = false := by
        simp only [wfTok, Bool.and_eq_true, Bool.not_eq_true'] at hwt
        exact hwt.1
      show repVarA (c :: renderLine (List.map step12Tok rest)) (.norm false) = _
      rw [repVarA_step_nonword c _ false hc, ihr]
      rfl
    | strlit s =>
      show repVarA ('"' :: 'S' :: 'T' :: 'R' :: 'I' :: 'N' :: 'G' :: '"'
          :: renderLine (List.map step12Tok rest)) (.norm false) = _
      rw [repVar_string, ihr]
      rfl
    | ident s =>
      have hnext : startsWord (Tok.ident s) = true := rfl
      have hR' : renderLine (List.map step12Tok rest) = []
          ∨ ∃ d R', renderLine (List.map step12Tok rest) = d :: R'
              ∧ isWordChar d = false := by
        cases rest with
        | nil => exact Or.inl rfl
        | cons u rest' =>
          have hsu : startsWord u = false := by
            have := wfChain_head hch
            simpa [startsWord] using this
          obtain ⟨d, R₀, hr, hd⟩ := render_head_nonword12 u (hwf u (by simp)) hsu
          refine Or.inr ⟨d, R₀ ++ renderLine (List.map step12Tok rest'), ?_, hd⟩
          rw [List.map_cons, renderLine_cons, hr]
          simp
      show repVarA (s ++ renderLine (List.map step12Tok rest)) (.norm false) = _
      rw [repVar_ident s hwt _ hR', ihr]
      rfl
    | num s =>
      have hR' : renderLine (List.map step12Tok rest) = []
          ∨ ∃ d R', renderLine (List.map step12Tok rest) = d :: R'
              ∧ isWordChar d = false := by
        cases rest with
        | nil => exact Or.inl rfl
        | cons u rest' =>
          have hsu : startsWord u = false := by
            have := wfChain_head hch
            simpa [startsWord] using this
          obtain ⟨d, R₀, hr, hd⟩ := render_head_nonword12 u (hwf u (by simp)) hsu
          refine Or.inr ⟨d, R₀ ++ renderLine (List.map step12Tok rest'), ?_, hd⟩
          rw [List.map_cons, renderLine_cons, hr]
          simp
      show repVarA ("NUM".data ++ renderLine (List.map step12Tok rest)) (.norm false) = _
      rw [repVar_ident "NUM".data (by decide) _ hR', ihr]
      rfl

/-- The three replacements together: on a well-formed token line,
`normalizeCodeLine` canonicalizes every token. -/
theorem normalizeCodeLine_render (ts : List Tok) (h : WFLine ts = true) :
    normalizeCodeLine (renderLine ts) = renderLine (ts.map canonTok) := by
  simp only [WFLine, Bool.and_eq_true, List.all_eq_true] at h
  unfold normalizeCodeLine
  rw [repStr_render ts h.1]
  show repVarA (repNumA (renderLine (ts.map step1Tok)) (.norm false)) (.norm false) = _
  rw [repNum_render ts h.1 h.2 false (by simp)]
  exact repVar_render ts h.1 h.2

end CQC

/-! ### Identifier renaming invariance (C7) -/

namespace CQC

theorem wfTok_ren {ρ : List Char → List Char} (hρ : ValidRen ρ) {t : Tok}
    (h : wfTok t = true) : wfTok (renTok ρ t) = true := by
  cases t with
  | ident s => exact hρ s h
  | strlit s => exact h
  | num s => exact h
  | sym c => exact h

theorem startsWord_ren (ρ : List Char → List Char) (t : Tok) :
    startsWord (renTok ρ t) = startsWord t := by
  cases t <;> rfl

theorem canonTok_ren (ρ : List Char → List Char) (t : Tok) :
    canonTok (renTok ρ t) = canonTok t := by
  cases t <;> rfl

theorem wfChain_ren (ρ : List Char → List Char) :
    ∀ ts : List Tok, wfChain (ts.map (renTok ρ)) = wfChain ts := by
  intro ts
  match ts with
  | [] => rfl
  | [t] => rfl
  | t :: t' :: rest =>
    show (!(startsWord (renTok ρ t) && startsWord (renTok ρ t'))
        && wfChain ((t' :: rest).map (renTok ρ))) = _
    rw [startsWord_ren, startsWord_ren, wfChain_ren ρ (t' :: rest)]
    rfl

theorem WFLine_ren {ρ : List Char → List Char} (hρ : ValidRen ρ) {ts : List Tok}
    (h : WFLine ts = true) : WFLine (ts.map (renTok ρ)) = true := by
  simp only [WFLine, Bool.and_eq_true, List.all_eq_true] at h ⊢
  refine ⟨?_, by rw [wfChain_ren]; exact h.2⟩
  intro t ht
  obtain ⟨u, hu, rfl⟩ := List.mem_map.mp ht
  exact wfTok_ren hρ (h.1 u hu)

theorem pair_mem_length {α : Type _} {a b : α} {l : List α}
    (hab : a ≠ b) (ha : a ∈ l) (hb : b ∈ l) : 2 ≤ l.length := by
  match l with
  | [] => simp at ha
  | [x] =>
    simp only [List.mem_singleton] at ha hb
    exact absurd (ha.trans hb.symm) hab
  | x :: y :: rest =>
    simp only [List.length_cons]
    omega

/-- C7: block keys are invariant under consistent identifier renaming.
(1) On a well-formed token line, renaming identifiers (literals unchanged)
does not change the normalized line.  (2) A 5-line window of such lines
yields the same block key after renaming.  (3) Two windows of a file with
the same nonempty key at distinct start lines form a group of size ≥ 2 and
are both reported. -/
theorem duplicate_rename_invariance :
    (∀ (ts : List Tok) (ρ : List Char → List Char), WFLine ts = true → ValidRen ρ →
        normalizeCodeLine (renderLine (ts.map (renTok ρ)))
          = normalizeCodeLine (renderLine ts))
    ∧ (∀ (w : List (List Tok)) (ρ : List Char → List Char), ValidRen ρ →
        (∀ ts ∈ w, WFLine ts = true) →
        (∀ ts ∈ w, isSkippedLine (renderLine ts) = false
          ∧ trimSpace (renderLine ts) = renderLine ts
          ∧ isSkippedLine (renderLine (ts.map (renTok ρ))) = false
          ∧ trimSpace (renderLine (ts.map (renTok ρ))) = renderLine (ts.map (renTok ρ))) →
        normalizeBlock (w.map (fun ts => renderLine (ts.map (renTok ρ))))
          = normalizeBlock (w.map (fun ts => renderLine ts)))
    ∧ (∀ (cfg : RuleConfig) (file : ParsedFile) (i j : Nat), i ≠ j →
        i ∈ windowStarts file.lines → j ∈ windowStarts file.lines →
        windowKey file.lines i = windowKey file.lines j →
        windowKey file.lines i ≠ [] →
        2 ≤ (occsOf file.lines (windowKey file.lines i)).length
        ∧ dupIssue cfg file (i + 1) (occsOf file.lines (windowKey file.lines i)).length
            ∈ checkDuplicateBlocks cfg file
        ∧ dupIssue cfg file (j + 1) (occsOf file.lines (windowKey file.lines i)).length
            ∈ checkDuplicateBlocks cfg file) := by
  have part1 : ∀ (ts : List Tok) (ρ : List Char → List Char),
      WFLine ts = true → ValidRen ρ →
      normalizeCodeLine (renderLine (ts.map (renTok ρ)))
        = normalizeCodeLine (renderLine ts) := by
    intro ts ρ hwf hρ
    rw [normalizeCodeLine_render ts hwf,
      normalizeCodeLine_render (ts.map (renTok ρ)) (WFLine_ren hρ hwf)]
    rw [List.map_map]
    congr 1
    apply List.map_congr_left
    intro t _
    exact canonTok_ren ρ t
  refine ⟨part1, ?_, ?_⟩
  · intro w ρ hρ hwf hlines
    unfold normalizeBlock
    rw [List.filter_eq_self.mpr ?f1, List.filter_eq_self.mpr ?f2]
    case f1 =>
      intro l hl
      obtain ⟨ts, hts, rfl⟩ := List.mem_map.mp hl
      rw [(hlines ts hts).2.2.1]
      rfl
    case f2 =>
      intro l hl
      obtain ⟨ts, hts, rfl⟩ := List.mem_map.mp hl
      rw [(hlines ts hts).1]
      rfl
    rw [List.map_map, List.map_map]
    have hmaps :
        w.map ((fun l => normalizeCodeLine (trimSpace l))
            ∘ (fun ts => renderLine (ts.map (renTok ρ))))
          = w.map ((fun l => normalizeCodeLine (trimSpace l))
            ∘ (fun ts => renderLine ts)) := by
      apply List.map_congr_left
      intro ts hts
      show normalizeCodeLine (trimSpace (renderLine (ts.map (renTok ρ))))
        = normalizeCodeLine (trimSpace (renderLine ts))
      rw [(hlines ts hts).2.2.2, (hlines ts hts).2.1]
      exact part1 ts ρ (hwf ts hts) hρ
    rw [hmaps]
  · intro cfg file i j hij hi hj hkey hne
    have hmi : (i + 1) ∈ occsOf file.lines (windowKey file.lines i) := by
      apply List.mem_filterMap.mpr
      exact ⟨i, hi, by rw [if_pos rfl]⟩
    have hmj : (j + 1) ∈ occsOf file.lines (windowKey file.lines i) := by
      apply List.mem_filterMap.mpr
      exact ⟨j, hj, by rw [if_pos hkey.symm]⟩
    have hlen : 2 ≤ (occsOf file.lines (windowKey file.lines i)).length :=
      pair_mem_length (by omega) hmi hmj
    refine ⟨hlen, ?_, ?_⟩
    · apply List.mem_filterMap.mpr
      exact ⟨i, hi, by rw [if_pos ⟨hne, hlen⟩]⟩
    · apply List.mem_filterMap.mpr
      refine ⟨j, hj, ?_⟩
      have hne' : windowKey file.lines j ≠ [] := by rw [← hkey]; exact hne
      have hlen' : 2 ≤ (occsOf file.lines (windowKey file.lines j)).length := by
        rw [← hkey]; exact hlen
      rw [if_pos ⟨hne', hlen'⟩, ← hkey]
end CQC

namespace CQC

/-- A concrete renaming: `x ↦ idx`, all other identifiers unchanged. -/
def renWitRho : List Char → List Char := fun s => if s = "x".data then "idx".data else s

theorem renWitRho_valid : ValidRen renWitRho := by
  intro s hs
  unfold renWitRho
  by_cases h : s = "x".data
  · rw [if_pos h]; decide
  · rw [if_neg h]; exact hs

def renWitToks : List Tok := [Tok.ident "x".data, Tok.sym '=', Tok.ident "y".data, Tok.sym ';']

/-- A 10-line file: a 5-line block followed by the same block with all
identifiers renamed. -/
def renWitLines : List (List Char) :=
  ["a(b);".data, "c = d;".data, "e + f;".data, "g.h();".data, "i[j];".data,
   "x(y);".data, "z = w;".data, "u + v;".data, "p.q();".data, "r[s];".data]

def renWitFile : ParsedFile := ⟨"R.java", [], renWitLines, .noAst⟩

def renWitCfg : RuleConfig := ⟨"java-duplicate-code", "n", "medium", "c", "d"⟩

/-- Witness for `duplicate_rename_invariance`: renaming `x` to `idx` leaves
the normalized line unchanged, and the renamed copy of a 5-line block groups
with the original — both occurrences are reported. -/
theorem duplicate_rename_invariance_witness :
    normalizeCodeLine (renderLine (renWitToks.map (renTok renWitRho)))
      = normalizeCodeLine (renderLine renWitToks)
    ∧ windowKey renWitLines 0 = windowKey renWitLines 5
    ∧ 2 ≤ (occsOf renWitLines (windowKey renWitLines 0)).length
    ∧ dupIssue renWitCfg renWitFile (0 + 1)
        (occsOf renWitLines (windowKey renWitLines 0)).length
        ∈ checkDuplicateBlocks renWitCfg renWitFile
    ∧ dupIssue renWitCfg renWitFile (5 + 1)
        (occsOf renWitLines (windowKey renWitLines 0)).length
        ∈ checkDuplicateBlocks renWitCfg renWitFile := by
  have h3 := duplicate_rename_invariance.2.2 renWitCfg renWitFile 0 5
    (by decide) (by decide) (by decide) (by decide) (by decide)
  exact ⟨duplicate_rename_invariance.1 renWitToks renWitRho (by decide) renWitRho_valid,
    by decide, h3.1, h3.2.1, h3.2.2⟩

end CQC

/-! ## Appending a branch construct to a body (monotonicity analysis, C6)

The generic machinery: for a matcher whose matches inside a string ending in
`}` neither read past the end nor consume the final `}`, the non-overlapping
match count over `body ++ tail` splits as the count over `body` plus the
count over `tail` (scanned with previous character `}`). -/

namespace CQC

/-- Items compatible with the split argument: literals are nonempty and never
contain `}` (so a match can neither end at nor cross the final `}` of the
body). -/
def ItemOK : PatItem → Prop
  | .lit cs => cs ≠ [] ∧ '}' ∉ cs
  | .wsThen c => c ≠ '}'
  | .wsPlus => True
  | .bndAfter => True
  | .upThrough _ => False

theorem mem_of_getLast? {l : List Char} {c : Char} (h : l.getLast? = some c) : c ∈ l := by
  induction l with
  | nil => simp at h
  | cons a rest ih =>
    cases rest with
    | nil =>
      simp only [List.getLast?_singleton, Option.some.injEq] at h
      simp [h]
    | cons b rest' =>
      rw [List.getLast?_cons_cons] at h
      exact List.mem_cons_of_mem a (ih h)

theorem isPrefixOf_append_stable {cs b s₀ : List Char}
    (hlast : b.getLast? = some '}') (hcs : '}' ∉ cs) :
    cs.isPrefixOf (b ++ s₀) = cs.isPrefixOf b := by
  cases hpb : cs.isPrefixOf b with
  | true =>
    have h1 : cs <+: b := List.isPrefixOf_iff_prefix.mp hpb
    exact List.isPrefixOf_iff_prefix.mpr (h1.trans (List.prefix_append b s₀))
  | false =>
    cases hpa : cs.isPrefixOf (b ++ s₀) with
    | false => rfl
    | true =>
      exfalso
      have h1 : cs <+: b ++ s₀ := List.isPrefixOf_iff_prefix.mp hpa
      by_cases hle : cs.length ≤ b.length
      · have : cs <+: b :=
          List.prefix_of_prefix_length_le h1 (List.prefix_append b s₀) hle
        rw [List.isPrefixOf_iff_prefix.mpr this] at hpb
        exact absurd hpb (by simp)
      · have hbc : b <+: cs :=
          List.prefix_of_prefix_length_le (List.prefix_append b s₀) h1 (by omega)
        exact hcs (hbc.subset (mem_of_getLast? hlast))

theorem leadingWs_cons (x : Char) (l : List Char) :
    leadingWs (x :: l) = if isRegexSpace x then leadingWs l + 1 else 0 := by
  unfold leadingWs
  by_cases h : isRegexSpace x
  · simp [List.takeWhile_cons, h]
  · simp [List.takeWhile_cons, h]

theorem leadingWs_append_stable (b s₀ : List Char)
    (hb : b ≠ []) (hlast : b.getLast? = some '}') :
    leadingWs (b ++ s₀) = leadingWs b ∧ leadingWs b < b.length := by
  induction b with
  | nil => exact absurd rfl hb
  | cons x rest ih =>
    cases rest with
    | nil =>
      have hx : x = '}' := by simpa using hlast
      subst hx
      have : isRegexSpace '}' = false := by decide
      constructor
      · show leadingWs ('}' :: s₀) = leadingWs ['}']
        rw [leadingWs_cons, leadingWs_cons, this]
        simp
      · rw [leadingWs_cons, this]
        simp
    | cons y rest' =>
      have hlast' : (y :: rest').getLast? = some '}' := by
        rw [List.getLast?_cons_cons] at hlast
        exact hlast
      obtain ⟨ih1, ih2⟩ := ih (by simp) hlast'
      constructor
      · show leadingWs (x :: ((y :: rest') ++ s₀)) = leadingWs (x :: (y :: rest'))
        rw [leadingWs_cons, leadingWs_cons, ih1]
      · rw [leadingWs_cons]
        by_cases h : isRegexSpace x
        · rw [if_pos h]
          simp only [List.length_cons]
          simp only [List.length_cons] at ih2
          omega
        · rw [if_neg h]
          simp

theorem getLast?_drop_of_lt {b : List Char} {k : Nat} (h : k < b.length) :
    (b.drop k).getLast? = b.getLast? := by
  conv_rhs => rw [← List.take_append_drop k b]
  rw [List.getLast?_append]
  cases hd : (b.drop k).getLast? with
  | none =>
    rw [List.getLast?_eq_none_iff] at hd
    have : (b.drop k).length = 0 := by rw [hd]; rfl
    rw [List.length_drop] at this
    omega
  | some c => rfl

theorem drop_ne_nil_of_lt {b : List Char} {k : Nat} (h : k < b.length) :
    b.drop k ≠ [] := by
  intro hc
  have : (b.drop k).length = 0 := by rw [hc]; rfl
  rw [List.length_drop] at this
  omega

end CQC

namespace CQC

/-- Core stability lemma: for `ItemOK` items, matching at a position inside a
string that ends in `}` neither changes when text is appended after the `}`
nor consumes the final `}`. -/
theorem matchItems_stable (s₀ : List Char) (items : List PatItem)
    (hOK : ∀ it ∈ items, ItemOK it) :
    ∀ b : List Char, b ≠ [] → b.getLast? = some '}' →
      matchItems items (b ++ s₀) = matchItems items b
      ∧ (∀ ℓ, matchItems items b = some ℓ → ℓ < b.length) := by
  induction items with
  | nil =>
    intro b hb _
    refine ⟨rfl, ?_⟩
    intro ℓ h
    simp only [matchItems, Option.some.injEq] at h
    subst h
    cases b with
    | nil => exact absurd rfl hb
    | cons x r => simp
  | cons it rest ih =>
    intro b hb hlast
    have hOKit := hOK it (by simp)
    have hOKrest : ∀ x ∈ rest, ItemOK x := fun x hx => hOK x (by simp [hx])
    cases it with
    | upThrough c => exact absurd hOKit (by simp [ItemOK])
    | lit cs =>
      obtain ⟨hcs1, hcs2⟩ := hOKit
      cases hp : cs.isPrefixOf b with
      | false =>
        have hifa : cs.isPrefixOf (b ++ s₀) = false := by
          rw [isPrefixOf_append_stable hlast hcs2]; exact hp
        constructor
        · simp [matchItems, hp, hifa]
        · intro ℓ h
          simp [matchItems, hp] at h
      | true =>
        have hifa : cs.isPrefixOf (b ++ s₀) = true := by
          rw [isPrefixOf_append_stable hlast hcs2]; exact hp
        have hpre : cs <+: b := List.isPrefixOf_iff_prefix.mp hp
        have hlt : cs.length < b.length := by
          rcases Nat.lt_or_ge cs.length b.length with h | h
          · exact h
          · exfalso
            have hle : cs.length ≤ b.length := hpre.length_le
            have heq : cs = b := hpre.eq_of_length (by omega)
            subst heq
            exact hcs2 (mem_of_getLast? hlast)
        have hb' : b.drop cs.length ≠ [] := drop_ne_nil_of_lt hlt
        have hlast' : (b.drop cs.length).getLast? = some '}' := by
          rw [getLast?_drop_of_lt hlt]; exact hlast
        obtain ⟨ihEq, ihLen⟩ := ih hOKrest (b.drop cs.length) hb' hlast'
        have hdrop : (b ++ s₀).drop cs.length = b.drop cs.length ++ s₀ :=
          List.drop_append_of_le_length (by omega)
        constructor
        · simp only [matchItems, hp, hifa, if_true]
          rw [hdrop, ihEq]
        · intro ℓ h
          simp only [matchItems, hp, if_true] at h
          obtain ⟨ℓ', hℓ', rfl⟩ := Option.map_eq_some'.mp h
          have := ihLen ℓ' hℓ'
          rw [List.length_drop] at this
          omega
    | wsThen c =>
      have hcne : c ≠ '}' := hOKit
      obtain ⟨hws, hwlt⟩ := leadingWs_append_stable b s₀ hb hlast
      have hidx : (b ++ s₀)[leadingWs b]? = b[leadingWs b]? := by
        rw [List.getElem?_append, if_pos hwlt]
      cases hbk : b[leadingWs b]? with
      | none =>
        constructor
        · simp only [matchItems]
          rw [hws, hidx, hbk]
          rw [if_neg (by simp), if_neg (by simp)]
        · intro ℓ h
          simp only [matchItems] at h
          rw [hbk, if_neg (by simp)] at h
          exact absurd h (by simp)
      | some d =>
        by_cases hdc : d = c
        · subst hdc
          have hk1 : leadingWs b + 1 < b.length := by
            rcases Nat.lt_or_ge (leadingWs b + 1) b.length with h | h
            · exact h
            · exfalso
              have hkl : leadingWs b = b.length - 1 := by omega
              have hgl : b[leadingWs b]? = b.getLast? := by
                rw [List.getLast?_eq_getElem?, hkl]
              rw [hbk, hlast] at hgl
              exact hcne (by simpa using hgl)
          have hb' : b.drop (leadingWs b + 1) ≠ [] := drop_ne_nil_of_lt hk1
          have hlast' : (b.drop (leadingWs b + 1)).getLast? = some '}' := by
            rw [getLast?_drop_of_lt hk1]; exact hlast
          obtain ⟨ihEq, ihLen⟩ := ih hOKrest _ hb' hlast'
          have hdrop : (b ++ s₀).drop (leadingWs b + 1)
              = b.drop (leadingWs b + 1) ++ s₀ :=
            List.drop_append_of_le_length (by omega)
          constructor
          · simp only [matchItems]
            rw [hws, hidx, hbk, if_pos rfl, if_pos rfl, hdrop, ihEq]
          · intro ℓ h
            simp only [matchItems] at h
            rw [hbk, if_pos rfl] at h
            obtain ⟨ℓ', hℓ', rfl⟩ := Option.map_eq_some'.mp h
            have := ihLen ℓ' hℓ'
            rw [List.length_drop] at this
            omega
        · constructor
          · simp only [matchItems]
            rw [hws, hidx, hbk]
            rw [if_neg (by simp [hdc]), if_neg (by simp [hdc])]
          · intro ℓ h
            simp only [matchItems] at h
            rw [hbk, if_neg (by simp [hdc])] at h
            exact absurd h (by simp)
    | wsPlus =>
      obtain ⟨hws, hwlt⟩ := leadingWs_append_stable b s₀ hb hlast
      by_cases hk : leadingWs b = 0
      · constructor
        · simp only [matchItems]
          rw [hws, if_pos hk, if_pos hk]
        · intro ℓ h
          simp only [matchItems] at h
          rw [if_pos hk] at h
          exact absurd h (by simp)
      · have hb' : b.drop (leadingWs b) ≠ [] := drop_ne_nil_of_lt hwlt
        have hlast' : (b.drop (leadingWs b)).getLast? = some '}' := by
          rw [getLast?_drop_of_lt hwlt]; exact hlast
        obtain ⟨ihEq, ihLen⟩ := ih hOKrest _ hb' hlast'
        have hdrop : (b ++ s₀).drop (leadingWs b) = b.drop (leadingWs b) ++ s₀ :=
          List.drop_append_of_le_length (by omega)
        constructor
        · simp only [matchItems]
          rw [hws, if_neg hk, if_neg hk, hdrop, ihEq]
        · intro ℓ h
          simp only [matchItems] at h
          rw [if_neg hk] at h
          obtain ⟨ℓ', hℓ', rfl⟩ := Option.map_eq_some'.mp h
          have := ihLen ℓ' hℓ'
          rw [List.length_drop] at this
          omega
    | bndAfter =>
      obtain ⟨ihEq, ihLen⟩ := ih hOKrest b hb hlast
      cases b with
      | nil => exact absurd rfl hb
      | cons x b'' =>
        by_cases hw : isWordChar x = true
        · constructor
          · show matchItems (.bndAfter :: rest) (x :: (b'' ++ s₀)) = _
            simp [matchItems, hw]
          · intro ℓ h
            simp [matchItems, hw] at h
        · constructor
          · show matchItems (.bndAfter :: rest) (x :: (b'' ++ s₀)) = _
            simp only [matchItems, hw, if_neg]
            exact ihEq
          · intro ℓ h
            simp only [matchItems, hw, if_neg] at h
            exact ihLen ℓ h

end CQC

namespace CQC

theorem matchItems_pos {cs : List Char} (hcs : cs ≠ []) (rest : List PatItem)
    (s : List Char) (ℓ : Nat)
    (h : matchItems (.lit cs :: rest) s = some ℓ) : 1 ≤ ℓ := by
  simp only [matchItems] at h
  cases hp : cs.isPrefixOf s with
  | false =>
    rw [hp] at h
    exact absurd h (by simp)
  | true =>
    rw [hp] at h
    simp only [if_true] at h
    obtain ⟨ℓ', _, rfl⟩ := Option.map_eq_some'.mp h
    have := List.length_pos.mpr hcs
    omega

/-- The split property for a simple pattern whose item list starts with a
nonempty literal and whose items are all `ItemOK`. -/
theorem patMatcher_stable (p : SimplePat) (s₀ : List Char)
    (hOK : ∀ it ∈ p.items, ItemOK it)
    (hpos : ∃ cs irest, p.items = .lit cs :: irest ∧ cs ≠ []) :
    (∀ prev (b : List Char), b ≠ [] → b.getLast? = some '}' →
        patMatcher p prev (b ++ s₀) = patMatcher p prev b)
    ∧ (∀ prev (b : List Char) ℓ, b ≠ [] → b.getLast? = some '}' →
        patMatcher p prev b = some ℓ → 1 ≤ ℓ ∧ ℓ < b.length) := by
  constructor
  · intro prev b hb hlast
    have hmi := (matchItems_stable s₀ p.items hOK b hb hlast).1
    unfold patMatcher
    by_cases hpb : p.bnd = true
    · rw [if_pos hpb, if_pos hpb]
      cases prev with
      | none => exact hmi
      | some d =>
        show (if isWordChar d = true then none else matchItems p.items (b ++ s₀))
          = (if isWordChar d = true then none else matchItems p.items b)
        by_cases hw : isWordChar d = true
        · rw [if_pos hw, if_pos hw]
        · rw [if_neg hw, if_neg hw]
          exact hmi
    · rw [if_neg hpb, if_neg hpb]
      exact hmi
  · intro prev b ℓ hb hlast h
    have hmm : matchItems p.items b = some ℓ := by
      unfold patMatcher at h
      by_cases hpb : p.bnd = true
      · rw [if_pos hpb] at h
        cases prev with
        | none => exact h
        | some d =>
          have h' : (if isWordChar d = true then none else matchItems p.items b)
              = some ℓ := h
          by_cases hw : isWordChar d = true
          · rw [if_pos hw] at h'
            exact absurd h' (by simp)
          · rw [if_neg hw] at h'
            exact h'
      · rw [if_neg hpb] at h
        exact h
    obtain ⟨cs, irest, hitems, hcs⟩ := hpos
    rw [hitems] at hmm
    refine ⟨matchItems_pos hcs irest b ℓ hmm, ?_⟩
    have := (matchItems_stable s₀ p.items hOK b hb hlast).2 ℓ
    rw [hitems] at this
    exact this hmm

/-- The split property for the ternary matcher, provided the appended text
contains no `:`. -/
theorem ternary_stable (s₀ : List Char)
    (hcol : s₀.findIdx? (fun x => x = ':') = none) :
    (∀ prev (b : List Char), b ≠ [] → b.getLast? = some '}' →
        ternaryMatcher prev (b ++ s₀) = ternaryMatcher prev b)
    ∧ (∀ prev (b : List Char) ℓ, b ≠ [] → b.getLast? = some '}' →
        ternaryMatcher prev b = some ℓ → 1 ≤ ℓ ∧ ℓ < b.length) := by
  constructor
  · intro prev b hb hlast
    match b, hb with
    | c :: rest, _ =>
      show (if c = '?' then
          (match List.findIdx? (fun x => decide (x = ':')) (rest ++ s₀) with
            | some kk => if 1 ≤ kk then some (kk + 2) else none
            | none => none)
          else none)
        = (if c = '?' then
          (match List.findIdx? (fun x => decide (x = ':')) rest with
            | some kk => if 1 ≤ kk then some (kk + 2) else none
            | none => none)
          else none)
      by_cases hc : c = '?'
      · rw [if_pos hc, if_pos hc, List.findIdx?_append, hcol]
        simp
      · rw [if_neg hc, if_neg hc]
  · intro prev b ℓ hb hlast h
    match b, hb with
    | c :: rest, _ =>
      have h' : (if c = '?' then
          (match List.findIdx? (fun x => decide (x = ':')) rest with
            | some kk => if 1 ≤ kk then some (kk + 2) else none
            | none => none)
          else none) = some ℓ := h
      clear h
      by_cases hc : c = '?'
      swap
      · rw [if_neg hc] at h'
        exact absurd h' (by simp)
      rw [if_pos hc] at h'
      cases hk : rest.findIdx? (fun x => x = ':') with
      | none =>
        simp only [hk] at h'
        exact absurd h' (by simp)
      | some kk =>
        simp only [hk] at h'
        by_cases h1 : 1 ≤ kk
        swap
        · rw [if_neg h1] at h'
          exact absurd h' (by simp)
        rw [if_pos h1] at h'
        obtain rfl : kk + 2 = ℓ := by simpa using h'
        obtain ⟨hklt', hfi⟩ := List.findIdx?_eq_some_iff_findIdx_eq.mp hk
        refine ⟨by omega, ?_⟩
        have hrest_ne : rest ≠ [] := by
          intro hr
          subst hr
          simp at hklt'
      -- the found character is ':', the last character is '}'
        have hw : List.findIdx (fun x => decide (x = ':')) rest < rest.length := by
          rw [hfi]; exact hklt'
        have hpe := List.findIdx_getElem (w := hw)
        have hcol' : rest[kk] = ':' := by
          have hidx : rest[List.findIdx (fun x => decide (x = ':')) rest]
              = rest[kk] := by
            congr 1
          rw [hidx] at hpe
          simpa using hpe
        have hlast' : rest.getLast? = some '}' := by
          match rest, hrest_ne with
          | d :: rest', _ =>
            rw [List.getLast?_cons_cons] at hlast
            exact hlast
        simp only [List.length_cons]
        rcases Nat.lt_or_ge (kk + 2) (rest.length + 1) with hlt | hge
        · exact hlt
        · exfalso
          have hkl : kk = rest.length - 1 := by omega
          have hge2 : rest.getLast? = rest[rest.length - 1]? :=
            List.getLast?_eq_getElem? rest
          rw [hlast', ← hkl] at hge2
          rw [List.getElem?_eq_getElem hklt', hcol'] at hge2
          simp at hge2

/-- Generic split of the non-overlapping scan over `body ++ tail` for a
matcher satisfying the two stability properties. -/
theorem scanAux_append (m : Matcher) (s₀ : List Char)
    (hA : ∀ prev (b : List Char), b ≠ [] → b.getLast? = some '}' →
        m prev (b ++ s₀) = m prev b)
    (hB : ∀ prev (b : List Char) ℓ, b ≠ [] → b.getLast? = some '}' →
        m prev b = some ℓ → 1 ≤ ℓ ∧ ℓ < b.length) :
    ∀ (n : Nat) (b : List Char) (prev : Option Char), b.length ≤ n → b ≠ [] →
      b.getLast? = some '}' →
      scanAux m prev (b ++ s₀) = scanAux m prev b + scanAux m (some '}') s₀ := by
  intro n
  induction n with
  | zero =>
    intro b prev hlen hb _
    cases b with
    | nil => exact absurd rfl hb
    | cons c r => simp at hlen
  | succ n ihn =>
    intro b prev hlen hb hlast
    match b, hb with
    | c :: rest, _ =>
      cases hm : m prev (c :: rest) with
      | none =>
        have hm' : m prev (c :: (rest ++ s₀)) = none := by
          have := hA prev (c :: rest) (by simp) hlast
          rw [show (c :: rest) ++ s₀ = c :: (rest ++ s₀) from rfl] at this
          rw [this]; exact hm
        rw [show (c :: rest) ++ s₀ = c :: (rest ++ s₀) from rfl]
        rw [scanAux_cons_none m prev c (rest ++ s₀) hm',
          scanAux_cons_none m prev c rest hm]
        cases rest with
        | nil =>
          have hc : c = '}' := by simpa using hlast
          subst hc
          rw [scanAux_nil]
          show scanAux m (some '}') ([] ++ s₀) = 0 + scanAux m (some '}') s₀
          rw [List.nil_append, Nat.zero_add]
        | cons d rest' =>
          have hlast' : (d :: rest').getLast? = some '}' := by
            rw [List.getLast?_cons_cons] at hlast
            exact hlast
          apply ihn (d :: rest') (some c) ?hl (by simp) hlast'
          case hl =>
            simp only [List.length_cons] at hlen ⊢
            omega
      | some ℓ =>
        obtain ⟨hl1, hl2⟩ := hB prev (c :: rest) ℓ (by simp) hlast hm
        simp only [List.length_cons] at hl2
        have hm' : m prev (c :: (rest ++ s₀)) = some ℓ := by
          have := hA prev (c :: rest) (by simp) hlast
          rw [show (c :: rest) ++ s₀ = c :: (rest ++ s₀) from rfl] at this
          rw [this]; exact hm
        rw [show (c :: rest) ++ s₀ = c :: (rest ++ s₀) from rfl]
        rw [scanAux_cons_some m prev c (rest ++ s₀) ℓ hm' hl1
          (by simp only [List.length_append]; omega)]
        rw [scanAux_cons_some m prev c rest ℓ hm hl1 (by omega)]
        have hprev : (c :: (rest ++ s₀))[ℓ - 1]? = (c :: rest)[ℓ - 1]? := by
          rw [show (c :: (rest ++ s₀)) = (c :: rest) ++ s₀ from rfl]
          rw [List.getElem?_append, if_pos (by simp only [List.length_cons]; omega)]
        have hdrop : (c :: (rest ++ s₀)).drop ℓ = (c :: rest).drop ℓ ++ s₀ := by
          rw [show (c :: (rest ++ s₀)) = (c :: rest) ++ s₀ from rfl]
          exact List.drop_append_of_le_length (by simp only [List.length_cons]; omega)
        rw [hprev, hdrop]
        have hlt : ℓ < (c :: rest).length := by simp only [List.length_cons]; omega
        have hbne : (c :: rest).drop ℓ ≠ [] := drop_ne_nil_of_lt hlt
        have hlast'' : ((c :: rest).drop ℓ).getLast? = some '}' := by
          rw [getLast?_drop_of_lt hlt]
          exact hlast
        have hlen' : ((c :: rest).drop ℓ).length ≤ n := by
          simp only [List.length_drop, List.length_cons]
          simp only [List.length_cons] at hlen
          omega
        rw [ihn _ _ hlen' hbne hlast'']
        omega

/-! ## C6: effect of appending a branch construct on the complexity score -/

/-- The complexity score of a raw body string: 1 plus one count per
non-overlapping match of each branch pattern (the non-empty branch of
`calculateComplexity`). -/
def bodyScore (body : List Char) : Nat :=
  branchMatchers.foldl (fun acc m => acc + scanCount m body) 1

/-- Matches of each branch pattern inside the appended tail, scanned with the
body's final `}` as previous character. -/
def tailScore (s₀ : List Char) : Nat :=
  branchMatchers.foldl (fun acc m => acc + scanAux m (some '}') s₀) 0

/-- The score of a body that ends in `}` splits over appending text with no
colon: no branch pattern can match across or consume the final `}`. -/
theorem bodyScore_append (s₀ : List Char)
    (hcol : s₀.findIdx? (fun x => x = ':') = none)
    (b : List Char) (hb : b ≠ []) (hlast : b.getLast? = some '}') :
    bodyScore (b ++ s₀) = bodyScore b + tailScore s₀ := by
  have key : ∀ p : SimplePat, (∀ it ∈ p.items, ItemOK it) →
      (∃ cs irest, p.items = .lit cs :: irest ∧ cs ≠ []) →
      scanCount (patMatcher p) (b ++ s₀)
        = scanCount (patMatcher p) b + scanAux (patMatcher p) (some '}') s₀ := by
    intro p hOK hpos
    have hs := patMatcher_stable p s₀ hOK hpos
    exact scanAux_append _ s₀ hs.1 hs.2 b.length b none le_rfl hb hlast
  have h1 := key ifPat
    (by intro it hit; fin_cases hit <;> simp [ItemOK])
    ⟨"if".data, [.wsThen '('], rfl, by decide⟩
  have h2 := key elseIfPat
    (by intro it hit; fin_cases hit <;> simp [ItemOK])
    ⟨"else".data, [.wsPlus, .lit "if".data, .wsThen '('], rfl, by decide⟩
  have h3 := key elsePat
    (by intro it hit; fin_cases hit <;> simp [ItemOK])
    ⟨"else".data, [.bndAfter], rfl, by decide⟩
  have h4 := key whilePat
    (by intro it hit; fin_cases hit <;> simp [ItemOK])
    ⟨"while".data, [.wsThen '('], rfl, by decide⟩
  have h5 := key forPat
    (by intro it hit; fin_cases hit <;> simp [ItemOK])
    ⟨"for".data, [.wsThen '('], rfl, by decide⟩
  have h6 := key doPat
    (by intro it hit; fin_cases hit <;> simp [ItemOK])
    ⟨"do".data, [.wsThen '{'], rfl, by decide⟩
  have h7 := key switchPat
    (by intro it hit; fin_cases hit <;> simp [ItemOK])
    ⟨"switch".data, [.wsThen '('], rfl, by decide⟩
  have h8 := key casePat
    (by intro it hit; fin_cases hit <;> simp [ItemOK])
    ⟨"case".data, [.wsPlus], rfl, by decide⟩
  have h9 := key catchPat
    (by intro it hit; fin_cases hit <;> simp [ItemOK])
    ⟨"catch".data, [.wsThen '('], rfl, by decide⟩
  have h10 := key andPat
    (by intro it hit; fin_cases hit; simp [ItemOK])
    ⟨"&&".data, [], rfl, by decide⟩
  have h11 := key orPat
    (by intro it hit; fin_cases hit; simp [ItemOK])
    ⟨"||".data, [], rfl, by decide⟩
  have hter := ternary_stable s₀ hcol
  have ht : scanCount ternaryMatcher (b ++ s₀)
      = scanCount ternaryMatcher b + scanAux ternaryMatcher (some '}') s₀ :=
    scanAux_append _ s₀ hter.1 hter.2 b.length b none le_rfl hb hlast
  simp only [bodyScore, tailScore, branchMatchers, List.foldl]
  rw [h1, h2, h3, h4, h5, h6, h7, h8, h9, h10, h11, ht]
  omega

/-- C6 counterexample: appending the single branch construct ` if(x){}` to a
body whose last token is `else` raises the score by 2, not 1 — the new text
matches both the `if` pattern and the `else if` pattern.  Computed through
`calculateComplexity` itself on two full method texts. -/
theorem complexity_append_counterexample :
    calculateComplexity "f(){else}".data "f".data = 2
    ∧ calculateComplexity "f(){else if(x){}}".data "f".data = 4 := by
  constructor
  · decide
  · decide

/-- C6 (amended): the score is monotone under appending colon-free text to a
body ending in `}`, and appending the isolated branch construct ` if (x1) {`
raises it by exactly 1; on any method whose body extraction succeeds,
`calculateComplexity` is `bodyScore` of the extracted body. -/
theorem complexity_append_if (b : List Char) (hb : b ≠ [])
    (hlast : b.getLast? = some '}') :
    bodyScore (b ++ " if (x1) \x7b".data) = bodyScore b + 1
    ∧ (∀ s₀ : List Char, s₀.findIdx? (fun x => x = ':') = none →
        bodyScore b ≤ bodyScore (b ++ s₀))
    ∧ (∀ content name : List Char, extractMethodBody content name ≠ [] →
        calculateComplexity content name
          = bodyScore (extractMethodBody content name)) := by
  refine ⟨?_, ?_, ?_⟩
  · rw [bodyScore_append " if (x1) \x7b".data (by decide) b hb hlast]
    have h : tailScore " if (x1) \x7b".data = 1 := by decide
    rw [h]
  · intro s₀ hcol
    rw [bodyScore_append s₀ hcol b hb hlast]
    omega
  · intro content name h
    unfold calculateComplexity bodyScore
    rw [if_neg h]

/-- Witness for `complexity_append_if` at the two-character body `{}`. -/
theorem complexity_append_if_witness :
    ("{}".data ≠ [] ∧ "{}".data.getLast? = some '}')
    ∧ bodyScore ("{}".data ++ " if (x1) \x7b".data) = bodyScore "{}".data + 1 :=
  ⟨⟨by decide, by decide⟩,
    (complexity_append_if "{}".data (by decide) (by decide)).1⟩

end CQC
